import Mathlib

/-!
# Auction resolution, cache preparation and the MobileFuse adapter

A shallow embedding of `exchange/auction.go` and `adapters/mobilefuse/mobilefuse.go`
of prebid-server, and theorems about winner selection, cache bookkeeping and
the adapter's response handling.

Modelling conventions.

* A Go pointer `*T` is a value of `Ptr T`: an address together with the pointee.
  None of the embedded functions writes through a pointer, so the pointee is a
  snapshot that never changes; two pointers are the same object exactly when
  they are equal as values of `Ptr T`.
* A Go `map[K]V` is an association list `GoMap K V`. `mapGet` is the lookup
  `v, ok := m[k]`, `mapSet` is the assignment `m[k] = v` (it overwrites the
  entry of an existing key in place and appends a new key at the end). A
  `range` over a map that is an input visits the entries in list order; since
  Go leaves that order unspecified, such maps are arbitrary lists, so that
  every visiting order is covered. The order in which `doCache` ranges over
  the index maps it has built itself is the parameter `rangeOrder`.
* `float64` prices are only ever compared, and are modelled by the ordered
  field `ℚ` (no NaN).
* A Go panic is the value `none`.
-/

namespace Prebid

/-! ## Pointers and maps -/

/-- A Go pointer: the address and the (immutable) pointee. -/
structure Ptr (α : Type) where
  addr : Nat
  val : α
deriving DecidableEq, Repr

/-- A Go map, as the list of its entries in visiting order. -/
abbrev GoMap (κ ν : Type) := List (κ × ν)

/-- The lookup `v, ok := m[k]`: the value of the first entry with key `k`. -/
def mapGet {κ ν : Type} [DecidableEq κ] : GoMap κ ν → κ → Option ν
  | [], _ => none
  | (k', v) :: rest, k => if k' = k then some v else mapGet rest k

/-- The assignment `m[k] = v`. -/
def mapSet {κ ν : Type} [DecidableEq κ] : GoMap κ ν → κ → ν → GoMap κ ν
  | [], k, v => [(k, v)]
  | (k', v') :: rest, k, v =>
    if k' = k then (k, v) :: rest else (k', v') :: mapSet rest k v

/-! ## Data model (`openrtb`, `openrtb_ext`, `exchange`) -/

/-- The type `openrtb_ext.BidderName`, a string. -/
abbrev BidderName := String

/-- Modelled from the spec: `openrtb_ext.BidType` and its constants
`BidTypeBanner`, `BidTypeVideo`, `BidTypeAudio`, `BidTypeNative` are declared
outside the embedded files; the four media formats of the data model. -/
inductive BidType where
  | BidTypeBanner
  | BidTypeVideo
  | BidTypeAudio
  | BidTypeNative
deriving DecidableEq, Repr

/-- The fields of `openrtb.Bid` that the embedded code reads. -/
structure Bid where
  ID : String
  ImpID : String
  Price : ℚ
  NURL : String
  AdM : String
deriving DecidableEq, Repr

/-- The struct `pbsOrtbBid`: a bid and its media type. -/
structure pbsOrtbBid where
  bid : Ptr Bid
  bidType : BidType
deriving DecidableEq, Repr

/-- The struct `pbsOrtbSeatBid`: the bids one bidder returned, in order. -/
structure pbsOrtbSeatBid where
  bids : List (Ptr pbsOrtbBid)
deriving DecidableEq, Repr

/-- The struct `auction`. -/
structure auction where
  winningBids : GoMap String (Ptr pbsOrtbBid)
  winningBidsByBidder : GoMap String (GoMap BidderName (Ptr pbsOrtbBid))
  roundedPrices : GoMap (Ptr pbsOrtbBid) String
  cacheIds : GoMap (Ptr Bid) String
  vastCacheIds : GoMap (Ptr Bid) String
deriving DecidableEq, Repr

/-! ## `newAuction` -/

/-- The two maps `newAuction` builds. -/
abbrev Winners :=
  GoMap String (Ptr pbsOrtbBid) × GoMap String (GoMap BidderName (Ptr pbsOrtbBid))

/-- The body of the inner loop of `newAuction` (lines 20-33), for one `bid` of
the seat bid of `bidderName`. -/
def auctionStep (bidderName : BidderName) (st : Winners) (bid : Ptr pbsOrtbBid) : Winners :=
  let cpm := bid.val.bid.val.Price
  let impID := bid.val.bid.val.ImpID
  let winningBids :=
    match mapGet st.1 impID with
    | some wbid => if cpm > wbid.val.bid.val.Price then mapSet st.1 impID bid else st.1
    | none => mapSet st.1 impID bid
  let winningBidsByBidder :=
    match mapGet st.2 impID with
    | some bidMap =>
      match mapGet bidMap bidderName with
      | some bestSoFar =>
        if cpm > bestSoFar.val.bid.val.Price then
          mapSet st.2 impID (mapSet bidMap bidderName bid)
        else st.2
      | none => mapSet st.2 impID (mapSet bidMap bidderName bid)
    | none => mapSet st.2 impID (mapSet [] bidderName bid)
  (winningBids, winningBidsByBidder)

/-- The body of the outer loop of `newAuction` (lines 18-35): a nil seat bid is
skipped, the bids of a present one are visited in order. -/
def seatStep (st : Winners) (entry : BidderName × Option pbsOrtbSeatBid) : Winners :=
  match entry.2 with
  | some seatBid => seatBid.bids.foldl (auctionStep entry.1) st
  | none => st

/-- The function `newAuction`. `seatBids` lists the entries of the Go map in the
order the `range` visits them; `numImps` is only a capacity hint. The three
maps the function does not set are nil (empty). -/
def newAuction (seatBids : GoMap BidderName (Option pbsOrtbSeatBid)) (_numImps : Nat) :
    auction :=
  let st := seatBids.foldl seatStep (([], []) : Winners)
  { winningBids := st.1
    winningBidsByBidder := st.2
    roundedPrices := []
    cacheIds := []
    vastCacheIds := [] }

/-! ## `makeVAST` and `doCache` -/

/-- The function `makeVAST`: the bid's `AdM` when it is defined, otherwise its
`NURL` wrapped in a redirect tag. -/
def makeVAST (bid : Ptr Bid) : String :=
  if bid.val.AdM = "" then
    "<VAST version=\"3.0\"><Ad><Wrapper>" ++
      "<AdSystem>prebid.org wrapper</AdSystem>" ++
      "<VASTAdTagURI><![CDATA[" ++ bid.val.NURL ++ "]]></VASTAdTagURI>" ++
      "<Impression></Impression><Creatives></Creatives>" ++
      "</Wrapper></Ad></VAST>"
  else bid.val.AdM

/-- The function `valOrZero`; `doCache` uses it for capacity hints only. -/
def valOrZero (useVal : Bool) (val : Int) : Int :=
  if useVal then val else 0

/-- Modelled from the spec: `prebid_cache_client.PayloadType` with its constants
`TypeJSON` and `TypeXML` is declared outside the embedded files; the content
type of a cacheable artifact, opaque JSON or XML. -/
inductive PayloadType where
  | TypeJSON
  | TypeXML
deriving DecidableEq, Repr

/-- Modelled from the spec: `prebid_cache_client.Cacheable` is declared outside
the embedded files; a content type and the raw bytes. -/
structure Cacheable where
  «Type» : PayloadType
  Data : String
deriving DecidableEq, Repr

/-- The three locals of `doCache` that its loop updates. -/
structure CacheWalk where
  toCache : List Cacheable
  bidIndices : GoMap Nat (Ptr Bid)
  vastIndices : GoMap Nat (Ptr Bid)
deriving DecidableEq, Repr

/-- The body of the inner loop of `doCache` (lines 71-89). `marshalBid` and
`marshalString` are `json.Marshal` at `*openrtb.Bid` and at `string`; `none`
is a returned error. -/
def cacheStep (marshalBid : Bid → Option String) (marshalString : String → Option String)
    (bids vast : Bool) (st : CacheWalk) (topBidPerBidder : Ptr pbsOrtbBid) : CacheWalk :=
  let st1 :=
    if bids then
      match marshalBid topBidPerBidder.val.bid.val with
      | some jsonBytes =>
        let toCache := st.toCache ++ [⟨PayloadType.TypeJSON, jsonBytes⟩]
        { st with
          toCache := toCache
          bidIndices := mapSet st.bidIndices (toCache.length - 1) topBidPerBidder.val.bid }
      | none => st
    else st
  if vast && decide (topBidPerBidder.val.bidType = BidType.BidTypeVideo) then
    match marshalString (makeVAST topBidPerBidder.val.bid) with
    | some jsonBytes =>
      let toCache := st1.toCache ++ [⟨PayloadType.TypeXML, jsonBytes⟩]
      { st1 with
        toCache := toCache
        vastIndices := mapSet st1.vastIndices (toCache.length - 1) topBidPerBidder.val.bid }
    | none => st1
  else st1

/-- Lines 65-91 of `doCache`: the batch and the two index maps, built by
walking `winningBidsByBidder`. -/
def prepareCache (marshalBid : Bid → Option String) (marshalString : String → Option String)
    (a : auction) (bids vast : Bool) : CacheWalk :=
  a.winningBidsByBidder.foldl
    (fun st topBidsPerImp =>
      topBidsPerImp.2.foldl
        (fun st' topBidPerBidder => cacheStep marshalBid marshalString bids vast st'
          topBidPerBidder.2)
        st)
    ⟨[], [], []⟩

/-- The loops of lines 97-101 and 105-109 of `doCache`: each index of the index
map whose identifier is not empty gives its bid an entry. Reading `ids[index]`
out of range panics. -/
def fillIds (ids : List String) :
    GoMap Nat (Ptr Bid) → GoMap (Ptr Bid) String → Option (GoMap (Ptr Bid) String)
  | [], m => some m
  | (index, bid) :: rest, m =>
    match ids[index]? with
    | none => none
    | some id => if id ≠ "" then fillIds ids rest (mapSet m bid id) else fillIds ids rest m

/-- The method `doCache`. `putJson` is `cache.PutJson` of the cache client, and
`rangeOrder` gives the order in which a `range` visits the entries of an index
map. The result is `none` when the call panics. -/
def doCache (marshalBid : Bid → Option String) (marshalString : String → Option String)
    (putJson : List Cacheable → List String)
    (rangeOrder : GoMap Nat (Ptr Bid) → GoMap Nat (Ptr Bid)) (a : auction) (bids vast : Bool) :
    Option auction :=
  if !bids && !vast then some a
  else
    let st := prepareCache marshalBid marshalString a bids vast
    let ids := putJson st.toCache
    let afterBids : Option auction :=
      if bids then
        (fillIds ids (rangeOrder st.bidIndices) []).map (fun m => { a with cacheIds := m })
      else some a
    afterBids.bind (fun a1 =>
      if vast then
        (fillIds ids (rangeOrder st.vastIndices) []).map
          (fun m => { a1 with vastCacheIds := m })
      else some a1)

/-! ## Reading the batch of `doCache` -/

/-- The per-bidder winning bids of an auction, in the order `doCache` visits them. -/
def perBidderWinners :
    GoMap String (GoMap BidderName (Ptr pbsOrtbBid)) → List (Ptr pbsOrtbBid)
  | [] => []
  | (_, topBidsPerImp) :: rest => topBidsPerImp.map Prod.snd ++ perBidderWinners rest

/-- The artifacts made from one winning bid, each with the bid it was made
from: its JSON when bids are persisted, then its VAST when VAST is persisted
and the bid is a video bid; an artifact whose serialization fails is left out. -/
def artifactsOf (marshalBid : Bid → Option String) (marshalString : String → Option String)
    (bids vast : Bool) (top : Ptr pbsOrtbBid) : List (Cacheable × Ptr Bid) :=
  (if bids then
    match marshalBid top.val.bid.val with
    | some jsonBytes => [(⟨PayloadType.TypeJSON, jsonBytes⟩, top.val.bid)]
    | none => []
  else []) ++
  (if vast = true ∧ top.val.bidType = BidType.BidTypeVideo then
    match marshalString (makeVAST top.val.bid) with
    | some jsonBytes => [(⟨PayloadType.TypeXML, jsonBytes⟩, top.val.bid)]
    | none => []
  else [])

/-- The artifacts of a list of winning bids, in order. -/
def artifactsOfAll (marshalBid : Bid → Option String) (marshalString : String → Option String)
    (bids vast : Bool) : List (Ptr pbsOrtbBid) → List (Cacheable × Ptr Bid)
  | [] => []
  | top :: rest =>
    artifactsOf marshalBid marshalString bids vast top ++
      artifactsOfAll marshalBid marshalString bids vast rest

/-- The batch an auction gives rise to, each artifact with the bid it was made
from. -/
def labelledBatch (marshalBid : Bid → Option String) (marshalString : String → Option String)
    (a : auction) (bids vast : Bool) : List (Cacheable × Ptr Bid) :=
  artifactsOfAll marshalBid marshalString bids vast (perBidderWinners a.winningBidsByBidder)

/-- The batch the specification describes, for serializations `encBid` and
`encString` that do not fail: for every per-bidder winning bid, its JSON when
bids are persisted, then the JSON-wrapped `makeVAST` of it when VAST is
persisted and the bid is a video bid. -/
def expectedBatch (encBid : Bid → String) (encString : String → String) (a : auction)
    (bids vast : Bool) : List Cacheable :=
  (perBidderWinners a.winningBidsByBidder).flatMap (fun top =>
    (if bids then [⟨PayloadType.TypeJSON, encBid top.val.bid.val⟩] else []) ++
    (if vast = true ∧ top.val.bidType = BidType.BidTypeVideo then
      [⟨PayloadType.TypeXML, encString (makeVAST top.val.bid)⟩] else []))

/-- The positions of a labelled batch, counted from `start`, that hold an
artifact of content type `t`, each with the bid of its artifact. -/
def indicesFrom (t : PayloadType) : Nat → List (Cacheable × Ptr Bid) → List (Nat × Ptr Bid)
  | _, [] => []
  | start, (c, x) :: rest =>
    (if c.«Type» = t then [(start, x)] else []) ++ indicesFrom t (start + 1) rest

/-- What the specification asks of a back-map `m`, for a batch whose artifacts
are labelled with their bids, a content type `t` and the identifiers `ids` the
cache store returned: a bid has an entry exactly when an artifact of type `t`
made from it sits at a position whose identifier is not empty; an entry is the
identifier of such a position; and it is the identifier of position `p` when `p`
is the only position holding such an artifact of the bid. -/
def backMapOf (batch : List (Cacheable × Ptr Bid)) (t : PayloadType) (ids : List String)
    (m : GoMap (Ptr Bid) String) : Prop :=
  ∀ X : Ptr Bid,
    ((∃ v, mapGet m X = some v) ↔
      ∃ (p : Nat) (data id : String),
        batch[p]? = some (Cacheable.mk t data, X) ∧ ids[p]? = some id ∧ id ≠ "") ∧
    (∀ v, mapGet m X = some v →
      ∃ (p : Nat) (data : String),
        batch[p]? = some (Cacheable.mk t data, X) ∧ ids[p]? = some v ∧ v ≠ "") ∧
    (∀ (p : Nat) (data id : String),
      batch[p]? = some (Cacheable.mk t data, X) → ids[p]? = some id → id ≠ "" →
      (∀ (p' : Nat) (data' : String), batch[p']? = some (Cacheable.mk t data', X) → p' = p) →
      mapGet m X = some id)

/-! ## Reading the result of `newAuction` -/

/-- The price of a bid object, `bid.bid.Price`. -/
def cpmOf (x : Ptr pbsOrtbBid) : ℚ := x.val.bid.val.Price

/-- The impression a bid object is for, `bid.bid.ImpID`. -/
def impOf (x : Ptr pbsOrtbBid) : String := x.val.bid.val.ImpID

/-- Every bid of every present seat bid, tagged with the bidder whose seat bid
holds it, in the order `newAuction` visits them: bidders in visiting order,
the bids of one bidder in seat-bid order. -/
def allBids : GoMap BidderName (Option pbsOrtbSeatBid) → List (BidderName × Ptr pbsOrtbBid)
  | [] => []
  | (b, some seatBid) :: rest => seatBid.bids.map (fun x => (b, x)) ++ allBids rest
  | (_, none) :: rest => allBids rest

/-- The visited bids that are for impression `i`. -/
def bidsFor (seatBids : GoMap BidderName (Option pbsOrtbSeatBid)) (i : String) :
    List (BidderName × Ptr pbsOrtbBid) :=
  (allBids seatBids).filter (fun e => decide (impOf e.2 = i))

/-- The visited bids of bidder `b` that are for impression `i`. -/
def bidsOf (seatBids : GoMap BidderName (Option pbsOrtbSeatBid)) (i : String) (b : BidderName) :
    List (BidderName × Ptr pbsOrtbBid) :=
  (bidsFor seatBids i).filter (fun e => decide (e.1 = b))

/-- The lookup `winningBidsByBidder[i][b]`. -/
def byBidder (m : GoMap String (GoMap BidderName (Ptr pbsOrtbBid))) (i : String)
    (b : BidderName) : Option (Ptr pbsOrtbBid) :=
  (mapGet m i).bind (fun bidMap => mapGet bidMap b)

/-- The earliest element of a list among those of the highest price: the first
element whose price no element of the list exceeds. -/
def earliestHighest {β : Type} (price : β → ℚ) (l : List β) : Option β :=
  l.find? (fun x => decide (∀ y ∈ l, price y ≤ price x))

/-- The update both loops of `newAuction` apply to a running best: an absent
best is set, a present one is replaced only by a strictly greater price. -/
def keepBest {β : Type} (price : β → ℚ) (best : Option β) (x : β) : Option β :=
  match best with
  | some w => if price x > price w then some x else some w
  | none => some x

/-! ## Data model of the adapter (`openrtb`, `adapters`, `errortypes`) -/

/-- Modelled from the spec: `openrtb.Banner` is declared outside the embedded
files; the adapter only tests the pointer for nil, the content is opaque. -/
structure Banner where
  raw : String
deriving DecidableEq, Repr

/-- Modelled from the spec: `openrtb.Video` is declared outside the embedded
files; the adapter only tests the pointer for nil, the content is opaque. -/
structure Video where
  raw : String
deriving DecidableEq, Repr

/-- The fields of `openrtb.Imp` that the adapter reads or writes; a nil pointer
or nil raw message is `none`. -/
structure Imp where
  ID : String
  Banner : Option Banner
  Video : Option Video
  TagID : String
  Ext : Option String
deriving DecidableEq, Repr

/-- The fields of `openrtb.BidRequest` that the adapter reads. -/
structure BidRequest where
  ID : String
  Imp : List Imp
deriving DecidableEq, Repr

/-- The struct `openrtb.SeatBid`: the bids of one seat of a bid response. -/
structure SeatBid where
  Bid : List Bid
  Seat : String
deriving DecidableEq, Repr

/-- The struct `openrtb.BidResponse`. -/
structure BidResponse where
  ID : String
  SeatBid : List SeatBid
deriving DecidableEq, Repr

/-- The struct `adapters.RequestData`. -/
structure RequestData where
  Method : String
  Uri : String
  Body : String
  Headers : List (String × String)
deriving DecidableEq, Repr

/-- The struct `adapters.ResponseData`. -/
structure ResponseData where
  StatusCode : Int
  Body : String
deriving DecidableEq, Repr

/-- The struct `adapters.TypedBid`; `Bid` holds the pointee of the bid pointer. -/
structure TypedBid where
  Bid : Bid
  BidType : BidType
deriving DecidableEq, Repr

/-- The struct `adapters.BidderResponse`, as `NewBidderResponseWithBidsCapacity`
makes it and `MakeBids` fills it. -/
structure BidderResponse where
  Bids : List TypedBid
deriving DecidableEq, Repr

/-- Modelled from the spec: the error values of package `errortypes`, declared
outside the embedded files: a classified bad-input error, a classified
bad-server-response error, and any other error value with its message. -/
inductive AdapterError where
  | BadInput (Message : String)
  | BadServerResponse (Message : String)
  | Other (Message : String)
deriving DecidableEq, Repr

/-- The constant `http.StatusOK`. -/
def StatusOK : Int := 200

/-- The constant `http.StatusNoContent`. -/
def StatusNoContent : Int := 204

/-- The constant `http.StatusBadRequest`. -/
def StatusBadRequest : Int := 400

/-! ## `MakeBids` of the MobileFuse adapter -/

/-- The method `getBidType`: it reads `imps[0]` and panics (`none`) on an empty
list; `imp_id` is not used. -/
def getBidType (_imp_id : String) (imps : List Imp) : Option BidType :=
  match imps[0]? with
  | none => none
  | some imp0 =>
    if imp0.Video ≠ none then some BidType.BidTypeVideo else some BidType.BidTypeBanner

/-- The method `MakeBids`. `unmarshal` is `json.Unmarshal` at
`openrtb.BidResponse`; the result is `none` when the call panics, otherwise the
returned bidder response (`none` for nil) and the returned errors. -/
def MakeBids (unmarshal : String → Except String BidResponse) (incomingRequest : BidRequest)
    (_outgoingRequest : RequestData) (response : ResponseData) :
    Option (Option BidderResponse × List AdapterError) :=
  if response.StatusCode = StatusNoContent then some (none, [])
  else if response.StatusCode = StatusBadRequest then
    some (none, [AdapterError.BadInput
      ("Unexpected status code: " ++ toString response.StatusCode ++ ".")])
  else if response.StatusCode ≠ StatusOK then
    some (none, [AdapterError.BadServerResponse
      ("Unexpected status code: " ++ toString response.StatusCode ++ ".")])
  else
    match unmarshal response.Body with
    | Except.error err => some (none, [AdapterError.Other err])
    | Except.ok incomingBidResponse =>
      (incomingBidResponse.SeatBid.foldlM
        (fun (bidsSoFar : List TypedBid) (seatbid : SeatBid) =>
          seatbid.Bid.foldlM
            (fun (bidsSoFar' : List TypedBid) (bid : Bid) =>
              (getBidType bid.ImpID incomingRequest.Imp).map
                (fun bidType => bidsSoFar' ++ [TypedBid.mk bid bidType]))
            bidsSoFar)
        []).map (fun typedBids => (some (BidderResponse.mk typedBids), []))

/-! ## `MakeRequests` of the MobileFuse adapter -/

/-- Modelled from the spec: `openrtb_ext.ExtImpMobileFuse` is declared outside
the embedded files; the adapter's typed configuration, of which the code reads
the placement identifier, the publisher identifier and the tag-id source. -/
structure ExtImpMobileFuse where
  PlacementId : Int
  PublisherId : Int
  TagidSrc : String
deriving DecidableEq, Repr

/-- Modelled from the spec: `adapters.ExtImpBidder` is declared outside the
embedded files; the impression extension, of which the code reads the raw
bidder blob. -/
structure ExtImpBidder where
  Bidder : Option String
deriving DecidableEq, Repr

/-- The library functions `MakeRequests` calls, and the endpoint template of the
adapter.
* `unmarshalExtImpBidder` is `json.Unmarshal` into the fresh
  `bidder_imp_extension` of one loop iteration.
* `unmarshalExtImpMobileFuse` is `json.Unmarshal` into the variable
  `mobileFuseImpExtension` that all iterations share: it is given the raw blob
  and the current value of the variable, and returns the value it leaves in the
  variable together with the error, if any.
* `ResolveMacros` is `macros.ResolveMacros` on the adapter's `EndpointTemplate`,
  given the publisher identifier.
* `marshalBidRequest` is `json.Marshal` at `openrtb.BidRequest`. -/
structure Library where
  unmarshalExtImpBidder : Option String → Except String ExtImpBidder
  unmarshalExtImpMobileFuse : Option String → ExtImpMobileFuse → ExtImpMobileFuse × Option String
  ResolveMacros : String → Except String String
  marshalBidRequest : BidRequest → Except String String

/-- The loop of `getFirstMobileFuseExtension` (lines 128-146), from the current
value of `mobileFuseImpExtension` and of `errs`. -/
def firstExtensionLoop (lib : Library) :
    List Imp → ExtImpMobileFuse → List AdapterError → ExtImpMobileFuse × List AdapterError
  | [], mobileFuseImpExtension, errs => (mobileFuseImpExtension, errs)
  | imp :: rest, mobileFuseImpExtension, errs =>
    match lib.unmarshalExtImpBidder imp.Ext with
    | Except.error err =>
      firstExtensionLoop lib rest mobileFuseImpExtension (errs ++ [AdapterError.Other err])
    | Except.ok bidder_imp_extension =>
      match lib.unmarshalExtImpMobileFuse bidder_imp_extension.Bidder mobileFuseImpExtension with
      | (updated, some err) =>
        firstExtensionLoop lib rest updated (errs ++ [AdapterError.Other err])
      | (updated, none) => (updated, errs)

/-- The method `getFirstMobileFuseExtension`: the variable starts at the zero
value and `errs` at nil. -/
def getFirstMobileFuseExtension (lib : Library) (request : BidRequest) :
    ExtImpMobileFuse × List AdapterError :=
  firstExtensionLoop lib request.Imp ⟨0, 0, ""⟩ []

/-- The method `getEndpoint`. -/
def getEndpoint (lib : Library) (ext : ExtImpMobileFuse) : Except String String :=
  let publisher_id := toString ext.PublisherId
  match lib.ResolveMacros publisher_id with
  | Except.error errs => Except.error errs
  | Except.ok url => if ext.TagidSrc = "ext" then Except.ok (url ++ "&tagid_src=ext")
    else Except.ok url

/-- The loop of `getValidImps` (lines 170-182), from the current value of
`validImps`: the first impression with a banner or a video is rewritten and
appended, and the loop breaks. -/
def validImpsLoop (ext : ExtImpMobileFuse) : List Imp → List Imp → List Imp
  | [], validImps => validImps
  | imp :: rest, validImps =>
    if imp.Banner ≠ none ∨ imp.Video ≠ none then
      let imp1 : Imp := if imp.Banner ≠ none ∧ imp.Video ≠ none then { imp with Video := none }
        else imp
      let imp2 : Imp := { imp1 with TagID := toString ext.PlacementId }
      let imp3 : Imp := { imp2 with Ext := none }
      validImps ++ [imp3]
    else validImpsLoop ext rest validImps

/-- The method `getValidImps`. -/
def getValidImps (bidRequest : BidRequest) (ext : ExtImpMobileFuse) : List Imp :=
  validImpsLoop ext bidRequest.Imp []

/-- The method `makeRequest`: the request data (`none` for nil) and the errors. -/
def makeRequest (lib : Library) (bidRequest : BidRequest) :
    Option RequestData × List AdapterError :=
  let found := getFirstMobileFuseExtension lib bidRequest
  let mobileFuseExtension := found.1
  let errs := found.2
  if errs ≠ [] then (none, errs)
  else
    match getEndpoint lib mobileFuseExtension with
    | Except.error err => (none, errs ++ [AdapterError.Other err])
    | Except.ok endpoint =>
      let validImps := getValidImps bidRequest mobileFuseExtension
      if validImps.length = 0 then (none, errs ++ [AdapterError.Other "No valid imps"])
      else
        let mobileFuseBidRequest : BidRequest := { bidRequest with Imp := validImps }
        match lib.marshalBidRequest mobileFuseBidRequest with
        | Except.error err => (none, errs ++ [AdapterError.Other err])
        | Except.ok body =>
          (some
            { Method := "POST"
              Uri := endpoint
              Body := body
              Headers := [("Content-Type", "application/json;charset=utf-8"),
                ("Accept", "application/json")] },
            errs)

/-- The method `MakeRequests`; its argument `reqInfo` is not used. The returned
slice holds request pointers, `none` for a nil pointer. -/
def MakeRequests (lib : Library) (request : BidRequest) :
    List (Option RequestData) × List AdapterError :=
  let made := makeRequest lib request
  let adapterRequest := made.1
  let errs := made.2
  let adapterRequests : List (Option RequestData) :=
    if errs = [] then [adapterRequest] else []
  (adapterRequests, errs)

/-! ## `setRoundedPrices` -/

/-- Modelled from the spec: `openrtb_ext.GranularityRange` is declared outside
the embedded files; one bucket of a price-granularity policy. -/
structure GranularityRange where
  Min : ℚ
  Max : ℚ
  Increment : ℚ
deriving DecidableEq, Repr

/-- Modelled from the spec: `openrtb_ext.PriceGranularity` is declared outside
the embedded files; an ordered set of buckets with a precision. -/
structure PriceGranularity where
  Precision : Int
  Ranges : List GranularityRange
deriving DecidableEq, Repr

/-- The method `setRoundedPrices`. `GetCpmStringValue` is the rounding function
of the package, which returns a string and (`some`) an error; the log line
written on an error does not touch the auction. -/
def setRoundedPrices (GetCpmStringValue : ℚ → PriceGranularity → String × Option String)
    (a : auction) (priceGranularity : PriceGranularity) : auction :=
  let roundedPrices : GoMap (Ptr pbsOrtbBid) String :=
    a.winningBidsByBidder.foldl
      (fun roundedPrices topBidsPerImp =>
        topBidsPerImp.2.foldl
          (fun roundedPrices' topBidPerBidder =>
            let rounded := GetCpmStringValue topBidPerBidder.2.val.bid.val.Price priceGranularity
            mapSet roundedPrices' topBidPerBidder.2 rounded.1)
          roundedPrices)
      []
  { a with roundedPrices := roundedPrices }

/-! ## Example inputs -/

/-- A banner bid of 1.50 for impression `imp-1`. -/
def bidA : Ptr pbsOrtbBid :=
  ⟨1, ⟨⟨11, ⟨"bid-a", "imp-1", 1.50, "http://a.example/win", ""⟩⟩, BidType.BidTypeBanner⟩⟩

/-- A video bid of 2.75 for impression `imp-1`. -/
def bidB : Ptr pbsOrtbBid :=
  ⟨2, ⟨⟨12, ⟨"bid-b", "imp-1", 2.75, "http://x.com/ad", ""⟩⟩, BidType.BidTypeVideo⟩⟩

/-- A second bid of 2.75 for impression `imp-1`, a distinct object. -/
def bidB2 : Ptr pbsOrtbBid :=
  ⟨3, ⟨⟨13, ⟨"bid-b2", "imp-1", 2.75, "", "<VAST/>"⟩⟩, BidType.BidTypeVideo⟩⟩

/-- Two bidders bid 1.50 and 2.75 for the same impression; a third returned nil. -/
def seatBidsAB : GoMap BidderName (Option pbsOrtbSeatBid) :=
  [("bidderA", some ⟨[bidA]⟩), ("bidderB", some ⟨[bidB]⟩), ("bidderC", none)]

/-- Bidder C ties with bidder B at 2.75, and is visited after it. -/
def seatBidsTie : GoMap BidderName (Option pbsOrtbSeatBid) :=
  [("bidderA", some ⟨[bidA]⟩), ("bidderB", some ⟨[bidB]⟩), ("bidderC", some ⟨[bidB2, bidA]⟩)]

/-- A serialization of bids that never fails. -/
def exEncBid (b : Bid) : String := "bid:" ++ b.ID

/-- A serialization of strings that never fails. -/
def exEncString (x : String) : String := "str:" ++ x

/-- The auction of the two-bidder example. -/
def exAuction : auction := newAuction seatBidsAB 1

/-- A cache store that returns an empty identifier for the second artifact. -/
def exPutJson (_batch : List Cacheable) : List String := ["id1", "", "id3"]

/-- A cache store that returns, as the identifier of each artifact, the data of
the artifact, so that its reply shows the batch it was given. -/
def exEchoStore (batch : List Cacheable) : List String := batch.map (fun c => c.Data)

/-- A request whose first impression has neither banner nor video and whose
second impression is a video impression. -/
def exRequest : BidRequest :=
  ⟨"req-1", [⟨"imp-1", none, none, "", none⟩, ⟨"imp-2", none, some ⟨"mp4"⟩, "", none⟩]⟩

/-- A bid for the video impression `imp-2`. -/
def exBid : Bid := ⟨"bid-1", "imp-2", 3.5, "http://x.com/ad", ""⟩

/-- A response body: the JSON of a bid response with the one bid `exBid`. -/
def exBody : String :=
  "\x7b\"id\":\"resp-1\",\"seatbid\":[\x7b\"bid\":[\x7b\"id\":\"bid-1\",\"impid\":\"imp-2\"," ++
    "\"price\":3.5,\"nurl\":\"http://x.com/ad\"\x7d],\"seat\":\"seat-1\"\x7d]\x7d"

/-- A parser that reads `exBody` as the response it encodes and rejects other
bodies. -/
def exUnmarshal (body : String) : Except String BidResponse :=
  if body = exBody then Except.ok ⟨"resp-1", [⟨[exBid], "seat-1"⟩]⟩
  else Except.error "invalid character"

/-- The outgoing request of the example. -/
def exOutgoing : RequestData := ⟨"POST", "http://mfx.example/openrtb?pub_id=1", "", []⟩

/-- The raw bidder blob of a well-formed MobileFuse extension. -/
def exBidderBlob : String := "\x7b\"placement_id\":7,\"pub_id\":42\x7d"

/-- A well-formed impression extension, holding `exBidderBlob`. -/
def exExt : String := "\x7b\"bidder\":" ++ exBidderBlob ++ "\x7d"

/-- A library that reads `exExt` and `exBidderBlob`, rejects every other
extension leaving the variable as it was, resolves the endpoint by appending
the publisher identifier, and serializes a request as the list of the
identifiers and tag identifiers of its impressions. -/
def exLib : Library where
  unmarshalExtImpBidder := fun raw =>
    if raw = some exExt then Except.ok ⟨some exBidderBlob⟩
    else Except.error "unexpected end of JSON input"
  unmarshalExtImpMobileFuse := fun raw current =>
    if raw = some exBidderBlob then (⟨7, 42, ""⟩, none)
    else (current, some "json: cannot unmarshal")
  ResolveMacros := fun publisher_id =>
    Except.ok ("http://mfx.example/openrtb?pub_id=" ++ publisher_id)
  marshalBidRequest := fun r =>
    Except.ok ("imps:" ++ String.intercalate "," (r.Imp.map (fun imp => imp.ID ++ "/" ++ imp.TagID)))

/-- A request whose only impression has neither banner nor video. -/
def exRequestNoFormat : BidRequest :=
  ⟨"req-2", [⟨"imp-1", none, none, "tag", some exExt⟩]⟩

/-- A request with two banner impressions, the first of which also has a video. -/
def exRequestTwo : BidRequest :=
  ⟨"req-3", [⟨"imp-1", some ⟨"300x250"⟩, some ⟨"mp4"⟩, "tag-1", some exExt⟩,
    ⟨"imp-2", some ⟨"728x90"⟩, none, "tag-2", some exExt⟩]⟩

/-- A request whose first impression has a malformed extension and whose second
impression has a well-formed one; both have a banner. -/
def exRequestBadFirst : BidRequest :=
  ⟨"req-4", [⟨"imp-1", some ⟨"300x250"⟩, none, "", some "\x7b"⟩,
    ⟨"imp-2", some ⟨"728x90"⟩, none, "", some exExt⟩]⟩

/-- A request whose first impression has a well-formed extension and whose
second impression has a malformed one; both have a banner. -/
def exRequestBadSecond : BidRequest :=
  ⟨"req-5", [⟨"imp-1", some ⟨"300x250"⟩, none, "", some exExt⟩,
    ⟨"imp-2", some ⟨"728x90"⟩, none, "", some "\x7b"⟩]⟩

/-- A rounding function with one bucket up to 20 in steps of 0.10: a price above
20 gives an error and the empty string. -/
def exRound (cpm : ℚ) (_config : PriceGranularity) : String × Option String :=
  if cpm > 20 then ("", some "price above the top bucket")
  else
    let tenths := (cpm * 10).floor.toNat
    (toString (tenths / 10) ++ "." ++ toString (tenths % 10) ++ "0", none)

/-- The price granularity of the example. -/
def exGranularity : PriceGranularity := ⟨2, [⟨0, 20, 0.1⟩]⟩

/-- A bid of 25.00 for impression `imp-1`, above the top bucket. -/
def bidHigh : Ptr pbsOrtbBid :=
  ⟨4, ⟨⟨14, ⟨"bid-high", "imp-1", 25, "", ""⟩⟩, BidType.BidTypeBanner⟩⟩

/-- The auction of bidder A bidding 1.50 and bidder B bidding 25.00. -/
def exAuctionHigh : auction :=
  newAuction [("bidderA", some ⟨[bidA]⟩), ("bidderB", some ⟨[bidHigh]⟩)] 1

/-- A bid for an impression `imp-9` that `exRequest` does not have. -/
def bidForeign : Ptr pbsOrtbBid :=
  ⟨5, ⟨⟨15, ⟨"bid-f", "imp-9", 1, "", ""⟩⟩, BidType.BidTypeBanner⟩⟩

/-- Bidders B and C tie at 2.75 for `imp-1`; B is visited first. -/
def seatBidsBC : GoMap BidderName (Option pbsOrtbSeatBid) :=
  [("bidderB", some ⟨[bidB]⟩), ("bidderC", some ⟨[bidB2]⟩)]

/-- The seat bids of `seatBidsBC`, with C visited first. -/
def seatBidsCB : GoMap BidderName (Option pbsOrtbSeatBid) :=
  [("bidderC", some ⟨[bidB2]⟩), ("bidderB", some ⟨[bidB]⟩)]

/-- A request whose first impression is a video impression and whose second
impression is a banner impression. -/
def exRequestVideoFirst : BidRequest :=
  ⟨"req-6", [⟨"imp-1", none, some ⟨"mp4"⟩, "", none⟩,
    ⟨"imp-2", some ⟨"300x250"⟩, none, "", none⟩]⟩

/-- A bid response of two seats, with a bid for `imp-1` and a bid with markup
for the banner impression `imp-2`. -/
def exResponseTwo : BidResponse :=
  ⟨"resp-2", [⟨[⟨"bid-1", "imp-1", 3.5, "http://x.com/ad", ""⟩], "seat-1"⟩,
    ⟨[⟨"bid-2", "imp-2", 1.25, "", "<div/>"⟩], "seat-2"⟩]⟩

/-- A request with no impressions. -/
def exRequestEmpty : BidRequest := ⟨"req-0", []⟩

/-! ## Definitions used in the proofs -/

/-- The rewriting `getValidImps` applies to an impression it keeps: the video is
dropped when a banner is present too, the tag identifier is the placement
identifier, the extension is removed. -/
def rewrittenImp (ext : ExtImpMobileFuse) (imp : Imp) : Imp :=
  { ID := imp.ID
    Banner := imp.Banner
    Video := if imp.Banner ≠ none ∧ imp.Video ≠ none then none else imp.Video
    TagID := toString ext.PlacementId
    Ext := none }

/-- The impression list the specification describes for the outbound request:
every impression of the request with a banner or a video, rewritten, in the
original order. -/
def everyValidImp (bidRequest : BidRequest) (ext : ExtImpMobileFuse) : List Imp :=
  (bidRequest.Imp.filter (fun imp => decide (imp.Banner ≠ none ∨ imp.Video ≠ none))).map
    (rewrittenImp ext)

/-- The inner loop body applied to a tagged bid. -/
def visit (st : Winners) (e : BidderName × Ptr pbsOrtbBid) : Winners :=
  auctionStep e.1 st e.2

/-- The price of a tagged bid. -/
def priceT (e : BidderName × Ptr pbsOrtbBid) : ℚ := cpmOf e.2

/-- The state of the walk that has appended the labelled artifacts `l`. -/
def walkOf (l : List (Cacheable × Ptr Bid)) : CacheWalk :=
  ⟨l.map Prod.fst, indicesFrom PayloadType.TypeJSON 0 l, indicesFrom PayloadType.TypeXML 0 l⟩

/-! ## Lemmas on maps -/

theorem mapGet_mapSet {κ ν : Type} [DecidableEq κ] (m : GoMap κ ν) (k k' : κ) (v : ν) :
    mapGet (mapSet m k v) k' = if k = k' then some v else mapGet m k' := by
  induction m with
  | nil => simp [mapSet, mapGet]
  | cons e rest ih =>
    obtain ⟨k0, v0⟩ := e
    by_cases h0 : k0 = k
    · subst h0
      by_cases h1 : k0 = k' <;> simp [mapSet, mapGet, h1]
    · by_cases h1 : k0 = k'
      · subst h1
        have h2 : ¬ k = k0 := fun h => h0 h.symm
        simp [mapSet, mapGet, h0, h2]
      · simp [mapSet, mapGet, h0, h1, ih]

theorem mapGet_mapSet_self {κ ν : Type} [DecidableEq κ] (m : GoMap κ ν) (k : κ) (v : ν) :
    mapGet (mapSet m k v) k = some v := by
  simp [mapGet_mapSet]

theorem mapGet_mapSet_ne {κ ν : Type} [DecidableEq κ] (m : GoMap κ ν) (k k' : κ) (v : ν)
    (h : k ≠ k') : mapGet (mapSet m k v) k' = mapGet m k' := by
  simp [mapGet_mapSet, h]

/-! ## The running best -/

theorem foldl_keepBest_some {β : Type} (price : β → ℚ) (l : List β) (w : β) :
    ∃ w', l.foldl (keepBest price) (some w) = some w' := by
  induction l generalizing w with
  | nil => exact ⟨w, rfl⟩
  | cons x rest ih =>
    simp only [List.foldl_cons, keepBest]
    split_ifs
    · exact ih x
    · exact ih w

theorem foldl_keepBest_eq_none {β : Type} (price : β → ℚ) (l : List β) :
    l.foldl (keepBest price) none = none ↔ l = [] := by
  cases l with
  | nil => simp
  | cons x rest =>
    obtain ⟨w', hw⟩ := foldl_keepBest_some price rest x
    simp [keepBest, hw]

/-- The running best over a list is at a position all of whose predecessors are
strictly cheaper and none of whose successors is dearer. -/
theorem foldl_keepBest_split {β : Type} (price : β → ℚ) (l : List β) (w : β)
    (h : l.foldl (keepBest price) none = some w) :
    ∃ pre post, l = pre ++ w :: post ∧ (∀ x ∈ pre, price x < price w) ∧
      (∀ x ∈ post, price x ≤ price w) := by
  induction l using List.reverseRecOn generalizing w with
  | nil => simp at h
  | append_singleton l x ih =>
    rw [List.foldl_append] at h
    simp only [List.foldl_cons, List.foldl_nil] at h
    cases hl : l.foldl (keepBest price) none with
    | none =>
      rw [hl] at h
      have hnil : l = [] := (foldl_keepBest_eq_none price l).1 hl
      simp only [keepBest, Option.some.injEq] at h
      subst h hnil
      exact ⟨[], [], by simp, by simp, by simp⟩
    | some w0 =>
      rw [hl] at h
      obtain ⟨pre, post, hsplit, hpre, hpost⟩ := ih w0 hl
      simp only [keepBest] at h
      split_ifs at h with hgt
      · simp only [Option.some.injEq] at h
        subst h
        refine ⟨l, [], by simp, ?_, by simp⟩
        intro y hy
        rw [hsplit] at hy
        simp only [List.mem_append, List.mem_cons] at hy
        rcases hy with hy | hy | hy
        · exact lt_trans (hpre y hy) hgt
        · subst hy; exact hgt
        · exact lt_of_le_of_lt (hpost y hy) hgt
      · simp only [Option.some.injEq] at h
        subst h
        refine ⟨pre, post ++ [x], by simp [hsplit], hpre, ?_⟩
        intro y hy
        simp only [List.mem_append, List.mem_singleton] at hy
        rcases hy with hy | hy
        · exact hpost y hy
        · subst hy; exact not_lt.1 hgt

/-- An element all of whose predecessors are strictly cheaper and none of whose
successors is dearer is the earliest of the highest price. -/
theorem earliestHighest_of_split {β : Type} (price : β → ℚ) (pre post : List β) (w : β)
    (hpre : ∀ x ∈ pre, price x < price w) (hpost : ∀ x ∈ post, price x ≤ price w) :
    earliestHighest price (pre ++ w :: post) = some w := by
  unfold earliestHighest
  rw [List.find?_append]
  have h1 : pre.find? (fun x => decide (∀ y ∈ pre ++ w :: post, price y ≤ price x)) = none := by
    rw [List.find?_eq_none]
    intro x hx
    simp only [decide_eq_true_eq, not_forall]
    exact ⟨w, by simp, not_le.2 (hpre x hx)⟩
  rw [h1]
  have h2 : ∀ y ∈ pre ++ w :: post, price y ≤ price w := by
    intro y hy
    simp only [List.mem_append, List.mem_cons] at hy
    rcases hy with hy | hy | hy
    · exact le_of_lt (hpre y hy)
    · subst hy; exact le_refl _
    · exact hpost y hy
  have hd : decide (∀ y ∈ pre ++ w :: post, price y ≤ price w) = true := decide_eq_true h2
  simp only [List.find?_cons, hd, Option.none_or]

theorem foldl_keepBest_eq_earliestHighest {β : Type} (price : β → ℚ) (l : List β) :
    l.foldl (keepBest price) none = earliestHighest price l := by
  cases h : l.foldl (keepBest price) none with
  | none =>
    have hnil : l = [] := (foldl_keepBest_eq_none price l).1 h
    subst hnil
    rfl
  | some w =>
    obtain ⟨pre, post, hsplit, hpre, hpost⟩ := foldl_keepBest_split price l w h
    rw [hsplit, earliestHighest_of_split price pre post w hpre hpost]

theorem earliestHighest_split {β : Type} (price : β → ℚ) (l : List β) (w : β)
    (h : earliestHighest price l = some w) :
    ∃ pre post, l = pre ++ w :: post ∧ (∀ x ∈ pre, price x < price w) ∧
      (∀ x ∈ post, price x ≤ price w) :=
  foldl_keepBest_split price l w ((foldl_keepBest_eq_earliestHighest price l).trans h)

/-! ## The loop of `newAuction` as a fold over the visited bids -/

theorem foldl_seatStep (seatBids : GoMap BidderName (Option pbsOrtbSeatBid)) (st : Winners) :
    seatBids.foldl seatStep st = (allBids seatBids).foldl visit st := by
  induction seatBids generalizing st with
  | nil => rfl
  | cons e rest ih =>
    obtain ⟨b, seat⟩ := e
    cases seat with
    | none => simpa [seatStep, allBids] using ih st
    | some seatBid =>
      simp only [List.foldl_cons, seatStep, allBids, List.foldl_append, List.foldl_map]
      exact ih _

theorem mem_allBids (seatBids : GoMap BidderName (Option pbsOrtbSeatBid)) (b : BidderName)
    (x : Ptr pbsOrtbBid) :
    (b, x) ∈ allBids seatBids ↔ ∃ seatBid, (b, some seatBid) ∈ seatBids ∧ x ∈ seatBid.bids := by
  induction seatBids with
  | nil => simp [allBids]
  | cons e rest ih =>
    obtain ⟨b0, seat⟩ := e
    cases seat with
    | none =>
      simp only [allBids, ih, List.mem_cons, Prod.mk.injEq]
      constructor
      · rintro ⟨sb, h1, h2⟩
        exact ⟨sb, Or.inr h1, h2⟩
      · rintro ⟨sb, h1 | h1, h2⟩
        · simp at h1
        · exact ⟨sb, h1, h2⟩
    | some seatBid =>
      simp only [allBids, List.mem_append, List.mem_map, ih, List.mem_cons, Prod.mk.injEq]
      constructor
      · rintro (⟨y, hy, rfl, rfl⟩ | ⟨sb, h1, h2⟩)
        · exact ⟨seatBid, Or.inl ⟨rfl, rfl⟩, hy⟩
        · exact ⟨sb, Or.inr h1, h2⟩
      · rintro ⟨sb, ⟨rfl, h1⟩ | h1, h2⟩
        · simp only [Option.some.injEq] at h1
          subst h1
          exact Or.inl ⟨x, h2, rfl, rfl⟩
        · exact Or.inr ⟨sb, h1, h2⟩

theorem auctionStep_winningBids (b : BidderName) (st : Winners) (bid : Ptr pbsOrtbBid)
    (i : String) :
    mapGet (auctionStep b st bid).1 i =
      if impOf bid = i then keepBest cpmOf (mapGet st.1 i) bid else mapGet st.1 i := by
  unfold auctionStep impOf
  simp only []
  by_cases hi : bid.val.bid.val.ImpID = i
  · subst hi
    cases h : mapGet st.1 bid.val.bid.val.ImpID with
    | none => simp [keepBest, mapGet_mapSet]
    | some w =>
      simp only [keepBest, cpmOf, if_true]
      split_ifs
      · simp [mapGet_mapSet]
      · exact h
  · simp only [hi, if_false]
    cases h : mapGet st.1 bid.val.bid.val.ImpID with
    | none => simp [mapGet_mapSet, hi]
    | some w =>
      simp only []
      split_ifs
      · simp [mapGet_mapSet, hi]
      · rfl

theorem auctionStep_byBidder (b : BidderName) (st : Winners) (bid : Ptr pbsOrtbBid)
    (i : String) (b' : BidderName) :
    byBidder (auctionStep b st bid).2 i b' =
      if impOf bid = i ∧ b = b' then keepBest cpmOf (byBidder st.2 i b') bid
      else byBidder st.2 i b' := by
  unfold auctionStep impOf byBidder
  simp only []
  by_cases hi : bid.val.bid.val.ImpID = i
  · subst hi
    cases h : mapGet st.2 bid.val.bid.val.ImpID with
    | none =>
      by_cases hb : b = b'
      · simp [keepBest, mapGet_mapSet, hb]
      · simp [mapGet_mapSet, hb, mapGet]
    | some bidMap =>
      simp only [Option.some_bind, true_and]
      cases h' : mapGet bidMap b with
      | none =>
        by_cases hb : b = b'
        · subst hb
          simp [keepBest, mapGet_mapSet, h']
        · simp [mapGet_mapSet, hb]
      | some best =>
        simp only []
        by_cases hb : b = b'
        · subst hb
          simp only [keepBest, cpmOf, if_true, h']
          split_ifs
          · simp [mapGet_mapSet]
          · simp [h, h']
        · simp only [hb, if_false]
          split_ifs
          · simp [mapGet_mapSet, hb]
          · simp [h]
  · simp only [hi, false_and, if_false]
    cases h : mapGet st.2 bid.val.bid.val.ImpID with
    | none => simp [mapGet_mapSet, hi]
    | some bidMap =>
      simp only []
      cases h' : mapGet bidMap b with
      | none => simp [mapGet_mapSet, hi]
      | some best =>
        simp only []
        split_ifs
        · simp [mapGet_mapSet, hi]
        · rfl

theorem auctionStep_outer_ne (b : BidderName) (st : Winners) (bid : Ptr pbsOrtbBid)
    (i : String) (hi : impOf bid ≠ i) :
    mapGet (auctionStep b st bid).2 i = mapGet st.2 i := by
  unfold impOf at hi
  unfold auctionStep
  simp only []
  cases h : mapGet st.2 bid.val.bid.val.ImpID with
  | none => simp [mapGet_mapSet, hi]
  | some bidMap =>
    simp only []
    cases h' : mapGet bidMap b with
    | none => simp [mapGet_mapSet, hi]
    | some best =>
      simp only []
      split_ifs
      · simp [mapGet_mapSet, hi]
      · rfl

/-- A view of the state that every visit updates by `keepBest` on the bids
selected by `p`, and leaves alone on the others, holds after the loop the
running best of the selected bids. -/
theorem foldl_visit_view (view : Winners → Option (Ptr pbsOrtbBid))
    (p : BidderName × Ptr pbsOrtbBid → Bool)
    (hstep : ∀ st e, view (visit st e) =
      if p e = true then keepBest cpmOf (view st) e.2 else view st)
    (l : List (BidderName × Ptr pbsOrtbBid)) (st : Winners)
    (o : Option (BidderName × Ptr pbsOrtbBid)) (ho : view st = o.map Prod.snd) :
    view (l.foldl visit st) = ((l.filter p).foldl (keepBest priceT) o).map Prod.snd := by
  induction l generalizing st o with
  | nil => simpa using ho
  | cons e rest ih =>
    simp only [List.foldl_cons]
    by_cases hp : p e = true
    · rw [List.filter_cons_of_pos hp, List.foldl_cons]
      apply ih
      rw [hstep, if_pos hp, ho]
      cases o with
      | none => rfl
      | some w =>
        simp only [Option.map_some', keepBest, priceT]
        split_ifs <;> rfl
    · rw [List.filter_cons_of_neg hp]
      apply ih
      rw [hstep, if_neg hp, ho]

theorem winningBids_newAuction (seatBids : GoMap BidderName (Option pbsOrtbSeatBid))
    (n : Nat) (i : String) :
    mapGet (newAuction seatBids n).winningBids i =
      (earliestHighest priceT (bidsFor seatBids i)).map Prod.snd := by
  unfold newAuction bidsFor
  simp only [foldl_seatStep]
  rw [← foldl_keepBest_eq_earliestHighest]
  exact foldl_visit_view (fun st => mapGet st.1 i) (fun e => decide (impOf e.2 = i))
    (fun st e => by simp [visit, auctionStep_winningBids]) (allBids seatBids) ([], []) none rfl

theorem byBidder_newAuction (seatBids : GoMap BidderName (Option pbsOrtbSeatBid))
    (n : Nat) (i : String) (b : BidderName) :
    byBidder (newAuction seatBids n).winningBidsByBidder i b =
      (earliestHighest priceT (bidsOf seatBids i b)).map Prod.snd := by
  unfold newAuction bidsOf bidsFor
  simp only [foldl_seatStep, List.filter_filter]
  rw [← foldl_keepBest_eq_earliestHighest]
  refine foldl_visit_view (fun st => byBidder st.2 i b)
    (fun e => decide (e.1 = b) && decide (impOf e.2 = i))
    (fun st e => ?_) (allBids seatBids) ([], []) none rfl
  simp only [visit, auctionStep_byBidder, Bool.and_eq_true, decide_eq_true_eq]
  by_cases h1 : impOf e.2 = i <;> by_cases h2 : e.1 = b <;> simp [h1, h2]

theorem foldl_visit_outer_none (l : List (BidderName × Ptr pbsOrtbBid)) (st : Winners)
    (i : String) (hl : ∀ e ∈ l, impOf e.2 ≠ i) :
    mapGet (l.foldl visit st).2 i = mapGet st.2 i := by
  induction l generalizing st with
  | nil => rfl
  | cons e rest ih =>
    simp only [List.foldl_cons]
    rw [ih _ (fun e' he' => hl e' (List.mem_cons_of_mem _ he'))]
    exact auctionStep_outer_ne e.1 st e.2 i (hl e (List.mem_cons_self _ _))

theorem earliestHighest_spec {β : Type} (price : β → ℚ) (l : List β) (w : β)
    (h : earliestHighest price l = some w) : w ∈ l ∧ ∀ y ∈ l, price y ≤ price w := by
  obtain ⟨pre, post, hsplit, hpre, hpost⟩ := earliestHighest_split price l w h
  subst hsplit
  refine ⟨by simp, ?_⟩
  intro y hy
  simp only [List.mem_append, List.mem_cons] at hy
  rcases hy with hy | hy | hy
  · exact le_of_lt (hpre y hy)
  · subst hy; exact le_refl _
  · exact hpost y hy

theorem earliestHighest_of_mem {β : Type} (price : β → ℚ) (l : List β) (x : β) (hx : x ∈ l) :
    ∃ w, earliestHighest price l = some w := by
  cases h : earliestHighest price l with
  | some w => exact ⟨w, rfl⟩
  | none =>
    rw [← foldl_keepBest_eq_earliestHighest, foldl_keepBest_eq_none] at h
    subst h
    simp at hx

theorem mem_bidsFor (seatBids : GoMap BidderName (Option pbsOrtbSeatBid)) (i : String)
    (b : BidderName) (x : Ptr pbsOrtbBid) :
    (b, x) ∈ bidsFor seatBids i ↔
      (∃ seatBid, (b, some seatBid) ∈ seatBids ∧ x ∈ seatBid.bids) ∧ x.val.bid.val.ImpID = i := by
  simp [bidsFor, mem_allBids, impOf]

theorem mem_bidsOf (seatBids : GoMap BidderName (Option pbsOrtbSeatBid)) (i : String)
    (b b' : BidderName) (x : Ptr pbsOrtbBid) :
    (b', x) ∈ bidsOf seatBids i b ↔
      ((∃ seatBid, (b, some seatBid) ∈ seatBids ∧ x ∈ seatBid.bids) ∧
        x.val.bid.val.ImpID = i) ∧ b' = b := by
  unfold bidsOf
  rw [List.mem_filter]
  constructor
  · rintro ⟨h1, h2⟩
    simp only [decide_eq_true_eq] at h2
    subst h2
    exact ⟨(mem_bidsFor seatBids i b' x).1 h1, rfl⟩
  · rintro ⟨h1, h2⟩
    subst h2
    exact ⟨(mem_bidsFor seatBids i b' x).2 h1, by simp⟩

/-! ## Winner selection -/

/-- C1: for every seat-bid map (nil seat bids allowed) and every impression
id carried by a bid of a present seat bid, `winningBids` has an entry for the
id, the entry is an input bid for that impression, and no input bid for that
impression has a greater price. -/
theorem newAuction_winner_is_highest (seatBids : GoMap BidderName (Option pbsOrtbSeatBid))
    (numImps : Nat) (i : String) (b : BidderName) (seatBid : pbsOrtbSeatBid)
    (x : Ptr pbsOrtbBid) (hseat : (b, some seatBid) ∈ seatBids) (hx : x ∈ seatBid.bids)
    (hi : x.val.bid.val.ImpID = i) :
    ∃ w, mapGet (newAuction seatBids numImps).winningBids i = some w ∧
      (∃ b' seatBid', (b', some seatBid') ∈ seatBids ∧ w ∈ seatBid'.bids) ∧
      w.val.bid.val.ImpID = i ∧
      ∀ b' seatBid' y, (b', some seatBid') ∈ seatBids → y ∈ seatBid'.bids →
        y.val.bid.val.ImpID = i → y.val.bid.val.Price ≤ w.val.bid.val.Price := by
  have hmem : (b, x) ∈ bidsFor seatBids i := (mem_bidsFor seatBids i b x).2 ⟨⟨seatBid, hseat, hx⟩, hi⟩
  obtain ⟨e, he⟩ := earliestHighest_of_mem priceT _ _ hmem
  obtain ⟨hin, hle⟩ := earliestHighest_spec priceT _ e he
  obtain ⟨⟨sb, h1, h2⟩, h3⟩ := (mem_bidsFor seatBids i e.1 e.2).1 hin
  refine ⟨e.2, ?_, ⟨e.1, sb, h1, h2⟩, h3, ?_⟩
  · rw [winningBids_newAuction, he]; rfl
  · intro b' sb' y hs hy hyi
    exact hle (b', y) ((mem_bidsFor seatBids i b' y).2 ⟨⟨sb', hs, hy⟩, hyi⟩)

theorem newAuction_winner_is_highest_witness :
    mapGet (newAuction seatBidsAB 1).winningBids "imp-1" = some bidB ∧
    ∃ w, mapGet (newAuction seatBidsAB 1).winningBids "imp-1" = some w ∧
      (∃ b' seatBid', (b', some seatBid') ∈ seatBidsAB ∧ w ∈ seatBid'.bids) ∧
      w.val.bid.val.ImpID = "imp-1" ∧
      ∀ b' seatBid' y, (b', some seatBid') ∈ seatBidsAB → y ∈ seatBid'.bids →
        y.val.bid.val.ImpID = "imp-1" → y.val.bid.val.Price ≤ w.val.bid.val.Price :=
  ⟨by decide!,
    newAuction_winner_is_highest seatBidsAB 1 "imp-1" "bidderA" ⟨[bidA]⟩ bidA
      (by simp [seatBidsAB]) (by simp) rfl⟩

/-- C2: the global winner of an impression is the per-bidder winner, for that
impression, of a bidder that returned it; and of the bidder `b` that returned
it whenever no other bidder's seat bid holds the same bid object. -/
theorem newAuction_winner_is_own_bidders_winner
    (seatBids : GoMap BidderName (Option pbsOrtbSeatBid)) (numImps : Nat) (i : String)
    (w : Ptr pbsOrtbBid) (hw : mapGet (newAuction seatBids numImps).winningBids i = some w) :
    (∃ b, (∃ seatBid, (b, some seatBid) ∈ seatBids ∧ w ∈ seatBid.bids) ∧
      byBidder (newAuction seatBids numImps).winningBidsByBidder i b = some w) ∧
    (∀ b, (∃ seatBid, (b, some seatBid) ∈ seatBids ∧ w ∈ seatBid.bids) →
      (∀ b' seatBid', (b', some seatBid') ∈ seatBids → w ∈ seatBid'.bids → b' = b) →
      byBidder (newAuction seatBids numImps).winningBidsByBidder i b = some w) := by
  have key : ∃ b, (∃ seatBid, (b, some seatBid) ∈ seatBids ∧ w ∈ seatBid.bids) ∧
      byBidder (newAuction seatBids numImps).winningBidsByBidder i b = some w := by
    rw [winningBids_newAuction] at hw
    cases he : earliestHighest priceT (bidsFor seatBids i) with
    | none => rw [he] at hw; simp at hw
    | some e =>
      rw [he] at hw
      simp only [Option.map_some', Option.some.injEq] at hw
      obtain ⟨hin, -⟩ := earliestHighest_spec priceT _ e he
      obtain ⟨⟨sb, h1, h2⟩, -⟩ := (mem_bidsFor seatBids i e.1 e.2).1 hin
      obtain ⟨pre, post, hsplit, hpre, hpost⟩ := earliestHighest_split priceT _ e he
      refine ⟨e.1, ⟨sb, h1, hw ▸ h2⟩, ?_⟩
      rw [byBidder_newAuction]
      have hof : bidsOf seatBids i e.1 =
          pre.filter (fun e' => decide (e'.1 = e.1)) ++
            e :: post.filter (fun e' => decide (e'.1 = e.1)) := by
        unfold bidsOf
        rw [hsplit, List.filter_append, List.filter_cons_of_pos (by simp)]
      rw [hof, earliestHighest_of_split priceT _ _ e
        (fun y hy => hpre y (List.mem_of_mem_filter hy))
        (fun y hy => hpost y (List.mem_of_mem_filter hy)), Option.map_some', hw]
  refine ⟨key, ?_⟩
  intro b _ honly
  obtain ⟨b0, ⟨sb0, h1, h2⟩, h3⟩ := key
  have hb : b0 = b := honly b0 sb0 h1 h2
  rw [← hb]
  exact h3

theorem newAuction_winner_is_own_bidders_winner_witness :
    byBidder (newAuction seatBidsAB 1).winningBidsByBidder "imp-1" "bidderB" = some bidB :=
  (newAuction_winner_is_own_bidders_winner seatBidsAB 1 "imp-1" bidB (by decide!)).2 "bidderB"
    ⟨⟨[bidB]⟩, by simp [seatBidsAB], by simp⟩
    (by
      intro b' seatBid' h1 h2
      simp only [seatBidsAB, List.mem_cons, Prod.mk.injEq, Option.some.injEq,
        List.mem_singleton] at h1
      rcases h1 with ⟨-, rfl⟩ | ⟨rfl, -⟩ | ⟨-, h⟩ | h
      · exact absurd h2 (by decide!)
      · rfl
      · cases h
      · cases h)

/-- C3: a bid replaces the current best, global or per bidder, only when its
price is strictly greater; hence the global winner of an impression is the
earliest visited of its highest-priced bids (bidders in visiting order, bids
in seat-bid order), and the per-bidder winner is the earliest of that bidder's
highest-priced bids for the impression. -/
theorem newAuction_tie_keeps_first (seatBids : GoMap BidderName (Option pbsOrtbSeatBid))
    (numImps : Nat) (i : String) (b : BidderName) :
    mapGet (newAuction seatBids numImps).winningBids i =
        (earliestHighest priceT (bidsFor seatBids i)).map Prod.snd ∧
      byBidder (newAuction seatBids numImps).winningBidsByBidder i b =
        (earliestHighest priceT (bidsOf seatBids i b)).map Prod.snd ∧
      (∀ (st : Winners) (bid w : Ptr pbsOrtbBid),
        mapGet st.1 bid.val.bid.val.ImpID = some w →
        mapGet (auctionStep b st bid).1 bid.val.bid.val.ImpID =
          some (if bid.val.bid.val.Price > w.val.bid.val.Price then bid else w)) ∧
      (∀ (st : Winners) (bid w : Ptr pbsOrtbBid),
        byBidder st.2 bid.val.bid.val.ImpID b = some w →
        byBidder (auctionStep b st bid).2 bid.val.bid.val.ImpID b =
          some (if bid.val.bid.val.Price > w.val.bid.val.Price then bid else w)) := by
  refine ⟨winningBids_newAuction seatBids numImps i, byBidder_newAuction seatBids numImps i b,
    ?_, ?_⟩
  · intro st bid w hw
    have himp : impOf bid = bid.val.bid.val.ImpID := rfl
    rw [auctionStep_winningBids, if_pos himp, hw]
    simp only [keepBest, cpmOf]
    split_ifs <;> rfl
  · intro st bid w hw
    have himp : impOf bid = bid.val.bid.val.ImpID ∧ b = b := ⟨rfl, rfl⟩
    rw [auctionStep_byBidder, if_pos himp, hw]
    simp only [keepBest, cpmOf]
    split_ifs <;> rfl

theorem newAuction_tie_keeps_first_witness :
    mapGet (newAuction seatBidsTie 1).winningBids "imp-1" = some bidB ∧
      byBidder (newAuction seatBidsTie 1).winningBidsByBidder "imp-1" "bidderC" = some bidB2 :=
  ⟨(newAuction_tie_keeps_first seatBidsTie 1 "imp-1" "bidderC").1.trans (by decide!),
    (newAuction_tie_keeps_first seatBidsTie 1 "imp-1" "bidderC").2.1.trans (by decide!)⟩

/-- C4: `winningBidsByBidder[i][b]` exists exactly when a present seat bid of
`b` holds a bid for `i`; when it exists it is one of `b`'s bids for `i`, and no
bid of `b` for `i` has a greater price; an impression no bid is for has no
entry in `winningBids` nor in `winningBidsByBidder`. -/
theorem newAuction_byBidder_entry (seatBids : GoMap BidderName (Option pbsOrtbSeatBid))
    (numImps : Nat) (i : String) (b : BidderName) :
    ((∃ w, byBidder (newAuction seatBids numImps).winningBidsByBidder i b = some w) ↔
        ∃ seatBid, (b, some seatBid) ∈ seatBids ∧
          ∃ x ∈ seatBid.bids, x.val.bid.val.ImpID = i) ∧
      (∀ w, byBidder (newAuction seatBids numImps).winningBidsByBidder i b = some w →
        (∃ seatBid, (b, some seatBid) ∈ seatBids ∧ w ∈ seatBid.bids) ∧
        w.val.bid.val.ImpID = i ∧
        ∀ seatBid x, (b, some seatBid) ∈ seatBids → x ∈ seatBid.bids →
          x.val.bid.val.ImpID = i → x.val.bid.val.Price ≤ w.val.bid.val.Price) ∧
      ((∀ b' seatBid x, (b', some seatBid) ∈ seatBids → x ∈ seatBid.bids →
          x.val.bid.val.ImpID ≠ i) →
        mapGet (newAuction seatBids numImps).winningBids i = none ∧
        mapGet (newAuction seatBids numImps).winningBidsByBidder i = none) := by
  have hsome : ∀ w, byBidder (newAuction seatBids numImps).winningBidsByBidder i b = some w →
      ∃ e, earliestHighest priceT (bidsOf seatBids i b) = some e ∧ e.2 = w := by
    intro w hw
    rw [byBidder_newAuction] at hw
    cases he : earliestHighest priceT (bidsOf seatBids i b) with
    | none => rw [he] at hw; simp at hw
    | some e =>
      rw [he] at hw
      simp only [Option.map_some', Option.some.injEq] at hw
      exact ⟨e, rfl, hw⟩
  refine ⟨⟨?_, ?_⟩, ?_, ?_⟩
  · rintro ⟨w, hw⟩
    obtain ⟨e, he, rfl⟩ := hsome w hw
    obtain ⟨hin, -⟩ := earliestHighest_spec priceT _ e he
    obtain ⟨⟨⟨sb, h1, h2⟩, h3⟩, -⟩ := (mem_bidsOf seatBids i b e.1 e.2).1 hin
    exact ⟨sb, h1, e.2, h2, h3⟩
  · rintro ⟨sb, h1, x, h2, h3⟩
    have hmem : (b, x) ∈ bidsOf seatBids i b :=
      (mem_bidsOf seatBids i b b x).2 ⟨⟨⟨sb, h1, h2⟩, h3⟩, rfl⟩
    obtain ⟨e, he⟩ := earliestHighest_of_mem priceT _ _ hmem
    exact ⟨e.2, by rw [byBidder_newAuction, he]; rfl⟩
  · intro w hw
    obtain ⟨e, he, rfl⟩ := hsome w hw
    obtain ⟨hin, hle⟩ := earliestHighest_spec priceT _ e he
    obtain ⟨⟨hret, h3⟩, -⟩ := (mem_bidsOf seatBids i b e.1 e.2).1 hin
    refine ⟨hret, h3, ?_⟩
    intro sb x h1 h2 hx
    exact hle (b, x) ((mem_bidsOf seatBids i b b x).2 ⟨⟨⟨sb, h1, h2⟩, hx⟩, rfl⟩)
  · intro hno
    constructor
    · rw [winningBids_newAuction]
      cases he : earliestHighest priceT (bidsFor seatBids i) with
      | none => rfl
      | some e =>
        obtain ⟨hin, -⟩ := earliestHighest_spec priceT _ e he
        obtain ⟨⟨sb, h1, h2⟩, h3⟩ := (mem_bidsFor seatBids i e.1 e.2).1 hin
        exact absurd h3 (hno e.1 sb e.2 h1 h2)
    · unfold newAuction
      simp only [foldl_seatStep]
      rw [foldl_visit_outer_none]
      · rfl
      · intro e he
        obtain ⟨sb, h1, h2⟩ := (mem_allBids seatBids e.1 e.2).1 he
        exact hno e.1 sb e.2 h1 h2

theorem newAuction_byBidder_entry_witness :
    (∃ w, byBidder (newAuction seatBidsAB 1).winningBidsByBidder "imp-1" "bidderA" = some w) ∧
      ((∃ seatBid, ("bidderA", some seatBid) ∈ seatBidsAB ∧ bidA ∈ seatBid.bids) ∧
        bidA.val.bid.val.ImpID = "imp-1" ∧
        ∀ seatBid x, ("bidderA", some seatBid) ∈ seatBidsAB → x ∈ seatBid.bids →
          x.val.bid.val.ImpID = "imp-1" → x.val.bid.val.Price ≤ bidA.val.bid.val.Price) ∧
      (mapGet (newAuction seatBidsAB 1).winningBids "imp-2" = none ∧
        mapGet (newAuction seatBidsAB 1).winningBidsByBidder "imp-2" = none) :=
  ⟨(newAuction_byBidder_entry seatBidsAB 1 "imp-1" "bidderA").1.2
      ⟨⟨[bidA]⟩, by simp [seatBidsAB], bidA, by simp, rfl⟩,
    (newAuction_byBidder_entry seatBidsAB 1 "imp-1" "bidderA").2.1 bidA (by decide!),
    (newAuction_byBidder_entry seatBidsAB 1 "imp-2" "bidderA").2.2
      (by
        intro b' seatBid x h1 h2
        simp only [seatBidsAB, List.mem_cons, Prod.mk.injEq, Option.some.injEq,
          List.mem_singleton] at h1
        rcases h1 with ⟨-, rfl⟩ | ⟨-, rfl⟩ | ⟨-, h⟩ | h
        · simp only [List.mem_singleton] at h2
          subst h2
          decide
        · simp only [List.mem_singleton] at h2
          subst h2
          decide
        · cases h
        · cases h)⟩

/-! ## The walk of `doCache` -/

theorem mapSet_fresh {κ ν : Type} [DecidableEq κ] (m : GoMap κ ν) (k : κ) (v : ν)
    (h : ∀ e ∈ m, e.1 ≠ k) : mapSet m k v = m ++ [(k, v)] := by
  induction m with
  | nil => rfl
  | cons e rest ih =>
    obtain ⟨k0, v0⟩ := e
    have h0 : k0 ≠ k := h (k0, v0) (List.mem_cons_self _ _)
    simp only [mapSet, h0, if_false, List.cons_append]
    rw [ih (fun e he => h e (List.mem_cons_of_mem _ he))]

theorem indicesFrom_append (t : PayloadType) (start : Nat) (l l' : List (Cacheable × Ptr Bid)) :
    indicesFrom t start (l ++ l') =
      indicesFrom t start l ++ indicesFrom t (start + l.length) l' := by
  induction l generalizing start with
  | nil => simp [indicesFrom]
  | cons e rest ih =>
    obtain ⟨c, x⟩ := e
    have hlen : start + 1 + rest.length = start + (rest.length + 1) := by omega
    rw [List.cons_append]
    simp only [indicesFrom]
    rw [ih, List.append_assoc, List.length_cons, hlen]

theorem indicesFrom_key (t : PayloadType) (start : Nat) (l : List (Cacheable × Ptr Bid))
    (e : Nat × Ptr Bid) (he : e ∈ indicesFrom t start l) :
    start ≤ e.1 ∧ e.1 < start + l.length := by
  induction l generalizing start with
  | nil => simp [indicesFrom] at he
  | cons e0 rest ih =>
    obtain ⟨c, x⟩ := e0
    simp only [indicesFrom, List.mem_append] at he
    rcases he with he | he
    · split_ifs at he
      · simp only [List.mem_singleton] at he
        subst he
        simp
      · simp at he
    · have := ih (start + 1) he
      simp only [List.length_cons]
      omega

theorem mem_indicesFrom (t : PayloadType) (start : Nat) (l : List (Cacheable × Ptr Bid))
    (p : Nat) (x : Ptr Bid) :
    (p, x) ∈ indicesFrom t start l ↔
      ∃ data, start ≤ p ∧ l[p - start]? = some (⟨t, data⟩, x) := by
  induction l generalizing start with
  | nil => simp [indicesFrom]
  | cons e0 rest ih =>
    obtain ⟨c, y⟩ := e0
    simp only [indicesFrom, List.mem_append, ih]
    constructor
    · rintro (h | ⟨data, h1, h2⟩)
      · split_ifs at h with hc
        · simp only [List.mem_singleton, Prod.mk.injEq] at h
          obtain ⟨rfl, rfl⟩ := h
          refine ⟨c.Data, le_refl _, ?_⟩
          simp [← hc]
        · simp at h
      · refine ⟨data, by omega, ?_⟩
        have hp : p - start = (p - (start + 1)) + 1 := by omega
        rw [hp, List.getElem?_cons_succ]
        exact h2
    · rintro ⟨data, h1, h2⟩
      by_cases hp : p = start
      · subst hp
        simp only [Nat.sub_self, List.getElem?_cons_zero, Option.some.injEq,
          Prod.mk.injEq] at h2
        obtain ⟨rfl, rfl⟩ := h2
        exact Or.inl (by simp)
      · have hp' : p - start = (p - (start + 1)) + 1 := by omega
        rw [hp', List.getElem?_cons_succ] at h2
        exact Or.inr ⟨data, by omega, h2⟩

theorem mapSet_indicesFrom (t : PayloadType) (l : List (Cacheable × Ptr Bid)) (x : Ptr Bid) :
    mapSet (indicesFrom t 0 l) l.length x = indicesFrom t 0 l ++ [(l.length, x)] := by
  apply mapSet_fresh
  intro e he
  have := indicesFrom_key t 0 l e he
  omega

theorem walkOf_push_json (l : List (Cacheable × Ptr Bid)) (data : String) (x : Ptr Bid) :
    CacheWalk.mk ((walkOf l).toCache ++ [Cacheable.mk PayloadType.TypeJSON data])
        (mapSet (walkOf l).bidIndices
          (((walkOf l).toCache ++ [Cacheable.mk PayloadType.TypeJSON data]).length - 1) x)
        (walkOf l).vastIndices =
      walkOf (l ++ [(Cacheable.mk PayloadType.TypeJSON data, x)]) := by
  simp [walkOf, indicesFrom_append, indicesFrom, mapSet_indicesFrom]

theorem walkOf_push_xml (l : List (Cacheable × Ptr Bid)) (data : String) (x : Ptr Bid) :
    CacheWalk.mk ((walkOf l).toCache ++ [Cacheable.mk PayloadType.TypeXML data])
        (walkOf l).bidIndices
        (mapSet (walkOf l).vastIndices
          (((walkOf l).toCache ++ [Cacheable.mk PayloadType.TypeXML data]).length - 1) x) =
      walkOf (l ++ [(Cacheable.mk PayloadType.TypeXML data, x)]) := by
  simp [walkOf, indicesFrom_append, indicesFrom, mapSet_indicesFrom]

theorem cacheStep_walkOf (marshalBid : Bid → Option String)
    (marshalString : String → Option String) (bids vast : Bool)
    (l : List (Cacheable × Ptr Bid)) (top : Ptr pbsOrtbBid) :
    cacheStep marshalBid marshalString bids vast (walkOf l) top =
      walkOf (l ++ artifactsOf marshalBid marshalString bids vast top) := by
  have hjson : (if bids = true then
        match marshalBid top.val.bid.val with
        | some jsonBytes =>
          CacheWalk.mk ((walkOf l).toCache ++ [Cacheable.mk PayloadType.TypeJSON jsonBytes])
            (mapSet (walkOf l).bidIndices
              (((walkOf l).toCache ++ [Cacheable.mk PayloadType.TypeJSON jsonBytes]).length - 1)
              top.val.bid)
            (walkOf l).vastIndices
        | none => walkOf l
      else walkOf l) =
      walkOf (l ++ (if bids = true then
        match marshalBid top.val.bid.val with
        | some jsonBytes => [(Cacheable.mk PayloadType.TypeJSON jsonBytes, top.val.bid)]
        | none => []
      else [])) := by
    cases bids with
    | false => simp
    | true =>
      cases marshalBid top.val.bid.val with
      | none => simp
      | some data => simpa using walkOf_push_json l data top.val.bid
  unfold cacheStep artifactsOf
  simp only []
  rw [hjson]
  by_cases hv : vast = true ∧ top.val.bidType = BidType.BidTypeVideo
  · have hv' : (vast && decide (top.val.bidType = BidType.BidTypeVideo)) = true := by
      simp [hv.1, hv.2]
    rw [if_pos hv', if_pos hv]
    cases marshalString (makeVAST top.val.bid) with
    | none => simp
    | some data =>
      simp only []
      rw [walkOf_push_xml, List.append_assoc]
  · have hv' : ¬ (vast && decide (top.val.bidType = BidType.BidTypeVideo)) = true := by
      simpa using hv
    rw [if_neg hv', if_neg hv]
    simp

theorem foldl_cacheStep (marshalBid : Bid → Option String)
    (marshalString : String → Option String) (bids vast : Bool)
    (tops : List (Ptr pbsOrtbBid)) (l : List (Cacheable × Ptr Bid)) :
    tops.foldl (cacheStep marshalBid marshalString bids vast) (walkOf l) =
      walkOf (l ++ artifactsOfAll marshalBid marshalString bids vast tops) := by
  induction tops generalizing l with
  | nil => simp [artifactsOfAll]
  | cons top rest ih =>
    simp only [List.foldl_cons, cacheStep_walkOf, ih, artifactsOfAll, List.append_assoc]

theorem foldl_walk_eq (marshalBid : Bid → Option String)
    (marshalString : String → Option String) (bids vast : Bool)
    (m : GoMap String (GoMap BidderName (Ptr pbsOrtbBid))) (st : CacheWalk) :
    m.foldl
      (fun st topBidsPerImp =>
        topBidsPerImp.2.foldl
          (fun st' topBidPerBidder => cacheStep marshalBid marshalString bids vast st'
            topBidPerBidder.2)
          st)
      st = (perBidderWinners m).foldl (cacheStep marshalBid marshalString bids vast) st := by
  induction m generalizing st with
  | nil => rfl
  | cons e rest ih =>
    obtain ⟨i, inner⟩ := e
    simp only [List.foldl_cons, perBidderWinners, List.foldl_append, List.foldl_map]
    exact ih _

theorem prepareCache_eq (marshalBid : Bid → Option String)
    (marshalString : String → Option String) (a : auction) (bids vast : Bool) :
    prepareCache marshalBid marshalString a bids vast =
      walkOf (labelledBatch marshalBid marshalString a bids vast) := by
  unfold prepareCache labelledBatch
  rw [foldl_walk_eq]
  have h := foldl_cacheStep marshalBid marshalString bids vast
    (perBidderWinners a.winningBidsByBidder) []
  simpa [walkOf, indicesFrom] using h

/-! ## The back-maps of `doCache` -/

theorem fillIds_spec (ids : List String) (entries : GoMap Nat (Ptr Bid))
    (m0 : GoMap (Ptr Bid) String) (hE : ∀ e ∈ entries, e.1 < ids.length) :
    ∃ m, fillIds ids entries m0 = some m ∧ ∀ X : Ptr Bid,
      ((∃ v, mapGet m X = some v) ↔
        (∃ v, mapGet m0 X = some v) ∨
          ∃ p id, (p, X) ∈ entries ∧ ids[p]? = some id ∧ id ≠ "") ∧
      (∀ v, mapGet m X = some v →
        mapGet m0 X = some v ∨ ∃ p, (p, X) ∈ entries ∧ ids[p]? = some v ∧ v ≠ "") := by
  induction entries generalizing m0 with
  | nil =>
    refine ⟨m0, rfl, fun X => ⟨?_, ?_⟩⟩
    · simp
    · intro v hv; exact Or.inl hv
  | cons e rest ih =>
    obtain ⟨index, bid⟩ := e
    have hidx : index < ids.length := hE (index, bid) (List.mem_cons_self _ _)
    have hrest : ∀ e ∈ rest, e.1 < ids.length := fun e he => hE e (List.mem_cons_of_mem _ he)
    have hget : ids[index]? = some ids[index] := List.getElem?_eq_getElem hidx
    by_cases hid : ids[index] = ""
    · obtain ⟨m, hm, hspec⟩ := ih m0 hrest
      refine ⟨m, ?_, fun X => ⟨?_, ?_⟩⟩
      · simp only [fillIds, hget, hid, ne_eq, not_true_eq_false, if_false]
        exact hm
      · rw [(hspec X).1]
        constructor
        · rintro (h | ⟨p, id, h1, h2, h3⟩)
          · exact Or.inl h
          · exact Or.inr ⟨p, id, List.mem_cons_of_mem _ h1, h2, h3⟩
        · rintro (h | ⟨p, id, h1, h2, h3⟩)
          · exact Or.inl h
          · rcases List.mem_cons.1 h1 with h1 | h1
            · simp only [Prod.mk.injEq] at h1
              obtain ⟨rfl, rfl⟩ := h1
              rw [hget] at h2
              simp only [Option.some.injEq] at h2
              exact absurd (h2.symm.trans hid) h3
            · exact Or.inr ⟨p, id, h1, h2, h3⟩
      · intro v hv
        rcases (hspec X).2 v hv with h | ⟨p, h1, h2, h3⟩
        · exact Or.inl h
        · exact Or.inr ⟨p, List.mem_cons_of_mem _ h1, h2, h3⟩
    · obtain ⟨m, hm, hspec⟩ := ih (mapSet m0 bid ids[index]) hrest
      refine ⟨m, ?_, fun X => ⟨?_, ?_⟩⟩
      · simp only [fillIds, hget, ne_eq, hid, not_false_eq_true, if_true]
        exact hm
      · rw [(hspec X).1, mapGet_mapSet]
        constructor
        · rintro (⟨v, h⟩ | ⟨p, id, h1, h2, h3⟩)
          · by_cases hb : bid = X
            · subst hb
              exact Or.inr ⟨index, ids[index], List.mem_cons_self _ _, hget, hid⟩
            · rw [if_neg hb] at h
              exact Or.inl ⟨v, h⟩
          · exact Or.inr ⟨p, id, List.mem_cons_of_mem _ h1, h2, h3⟩
        · rintro (⟨v, h⟩ | ⟨p, id, h1, h2, h3⟩)
          · by_cases hb : bid = X
            · exact Or.inl ⟨ids[index], by rw [if_pos hb]⟩
            · exact Or.inl ⟨v, by rw [if_neg hb]; exact h⟩
          · rcases List.mem_cons.1 h1 with h1 | h1
            · simp only [Prod.mk.injEq] at h1
              obtain ⟨rfl, rfl⟩ := h1
              exact Or.inl ⟨ids[p], by rw [if_pos rfl]⟩
            · exact Or.inr ⟨p, id, h1, h2, h3⟩
      · intro v hv
        rcases (hspec X).2 v hv with h | ⟨p, h1, h2, h3⟩
        · rw [mapGet_mapSet] at h
          by_cases hb : bid = X
          · subst hb
            rw [if_pos rfl] at h
            simp only [Option.some.injEq] at h
            subst h
            exact Or.inr ⟨index, List.mem_cons_self _ _, hget, hid⟩
          · rw [if_neg hb] at h
            exact Or.inl h
        · exact Or.inr ⟨p, List.mem_cons_of_mem _ h1, h2, h3⟩

theorem backMapOf_of_entries (batch : List (Cacheable × Ptr Bid)) (t : PayloadType)
    (ids : List String) (m : GoMap (Ptr Bid) String)
    (h : ∀ X : Ptr Bid,
      ((∃ v, mapGet m X = some v) ↔
        ∃ p id, (p, X) ∈ indicesFrom t 0 batch ∧ ids[p]? = some id ∧ id ≠ "") ∧
      (∀ v, mapGet m X = some v →
        ∃ p, (p, X) ∈ indicesFrom t 0 batch ∧ ids[p]? = some v ∧ v ≠ "")) :
    backMapOf batch t ids m := by
  have hmem : ∀ p X, (p, X) ∈ indicesFrom t 0 batch ↔
      ∃ data, batch[p]? = some (Cacheable.mk t data, X) := by
    intro p X
    rw [mem_indicesFrom]
    simp
  intro X
  have hval : ∀ v, mapGet m X = some v →
      ∃ (p : Nat) (data : String),
        batch[p]? = some (Cacheable.mk t data, X) ∧ ids[p]? = some v ∧ v ≠ "" := by
    intro v hv
    obtain ⟨p, h1, h2, h3⟩ := (h X).2 v hv
    obtain ⟨data, hd⟩ := (hmem p X).1 h1
    exact ⟨p, data, hd, h2, h3⟩
  have hex : (∃ v, mapGet m X = some v) ↔
      ∃ (p : Nat) (data id : String),
        batch[p]? = some (Cacheable.mk t data, X) ∧ ids[p]? = some id ∧ id ≠ "" := by
    rw [(h X).1]
    constructor
    · rintro ⟨p, id, h1, h2, h3⟩
      obtain ⟨data, hd⟩ := (hmem p X).1 h1
      exact ⟨p, data, id, hd, h2, h3⟩
    · rintro ⟨p, data, id, h1, h2, h3⟩
      exact ⟨p, id, (hmem p X).2 ⟨data, h1⟩, h2, h3⟩
  refine ⟨hex, hval, ?_⟩
  intro p data id h1 h2 h3 huniq
  obtain ⟨v, hv⟩ := hex.2 ⟨p, data, id, h1, h2, h3⟩
  obtain ⟨p', data', h1', h2', -⟩ := hval v hv
  have hp : p' = p := huniq p' data' h1'
  subst hp
  rw [h2] at h2'
  simp only [Option.some.injEq] at h2'
  rw [hv, h2']

theorem fillIds_backMapOf (batch : List (Cacheable × Ptr Bid)) (t : PayloadType)
    (ids : List String) (entries : GoMap Nat (Ptr Bid))
    (hperm : entries.Perm (indicesFrom t 0 batch)) (hlen : ids.length = batch.length) :
    ∃ m, fillIds ids entries [] = some m ∧ backMapOf batch t ids m := by
  have hE : ∀ e ∈ entries, e.1 < ids.length := by
    intro e he
    have := indicesFrom_key t 0 batch e (hperm.mem_iff.1 he)
    omega
  obtain ⟨m, hm, hspec⟩ := fillIds_spec ids entries [] hE
  refine ⟨m, hm, backMapOf_of_entries batch t ids m (fun X => ⟨?_, ?_⟩)⟩
  · rw [(hspec X).1]
    constructor
    · rintro (⟨v, hv⟩ | ⟨p, id, h1, h2⟩)
      · simp [mapGet] at hv
      · exact ⟨p, id, hperm.mem_iff.1 h1, h2⟩
    · rintro ⟨p, id, h1, h2⟩
      exact Or.inr ⟨p, id, hperm.mem_iff.2 h1, h2⟩
  · intro v hv
    rcases (hspec X).2 v hv with h | ⟨p, h1, h2⟩
    · simp [mapGet] at h
    · exact ⟨p, hperm.mem_iff.1 h1, h2⟩

theorem artifactsOfAll_type (marshalBid : Bid → Option String)
    (marshalString : String → Option String) (bids vast : Bool)
    (tops : List (Ptr pbsOrtbBid)) (e : Cacheable × Ptr Bid)
    (he : e ∈ artifactsOfAll marshalBid marshalString bids vast tops) :
    (e.1.«Type» = PayloadType.TypeJSON → bids = true) ∧
      (e.1.«Type» = PayloadType.TypeXML → vast = true) := by
  induction tops with
  | nil => simp [artifactsOfAll] at he
  | cons top rest ih =>
    simp only [artifactsOfAll, List.mem_append] at he
    rcases he with he | he
    · simp only [artifactsOf, List.mem_append] at he
      rcases he with he | he
      · split_ifs at he with hb
        · cases hm : marshalBid top.val.bid.val with
          | none => rw [hm] at he; simp at he
          | some data =>
            rw [hm] at he
            simp only [List.mem_singleton] at he
            subst he
            exact ⟨fun _ => hb, fun h => by cases h⟩
        · simp at he
      · split_ifs at he with hv
        · cases hm : marshalString (makeVAST top.val.bid) with
          | none => rw [hm] at he; simp at he
          | some data =>
            rw [hm] at he
            simp only [List.mem_singleton] at he
            subst he
            exact ⟨fun h => (by cases h), fun _ => hv.1⟩
        · simp at he
    · exact ih he

theorem backMapOf_nil (batch : List (Cacheable × Ptr Bid)) (t : PayloadType)
    (ids : List String) (hnone : ∀ e ∈ batch, e.1.«Type» ≠ t) : backMapOf batch t ids [] := by
  have hno : ∀ (p : Nat) (data : String) (X : Ptr Bid),
      batch[p]? = some (Cacheable.mk t data, X) → False := by
    intro p data X h
    exact hnone _ (List.getElem?_mem h) rfl
  intro X
  refine ⟨⟨?_, ?_⟩, ?_, ?_⟩
  · rintro ⟨v, hv⟩
    simp [mapGet] at hv
  · rintro ⟨p, data, id, h1, -, -⟩
    exact (hno p data X h1).elim
  · intro v hv
    simp [mapGet] at hv
  · intro p data id h1
    exact (hno p data X h1).elim

/-! ## Cache preparation -/

/-- C5: when the cache store returns as many identifiers as the batch has
artifacts, `doCache` returns, whatever the order in which it ranges over its
index maps, and `cacheIds` has an entry for a bid exactly when a JSON artifact
made from that bid sits at a batch position whose identifier is not empty, the
entry being the identifier of such a position (of position `p` when `p` is the
only one); likewise `vastCacheIds` for the XML artifacts. A back-map whose
flag is off is left as it was, unset. -/
theorem doCache_back_maps (marshalBid : Bid → Option String)
    (marshalString : String → Option String) (putJson : List Cacheable → List String)
    (rangeOrder : GoMap Nat (Ptr Bid) → GoMap Nat (Ptr Bid)) (a : auction) (bids vast : Bool)
    (horder : ∀ m, (rangeOrder m).Perm m)
    (hlen : (putJson (prepareCache marshalBid marshalString a bids vast).toCache).length =
      (prepareCache marshalBid marshalString a bids vast).toCache.length)
    (hbids : bids = false → a.cacheIds = []) (hvast : vast = false → a.vastCacheIds = []) :
    (prepareCache marshalBid marshalString a bids vast).toCache =
        (labelledBatch marshalBid marshalString a bids vast).map Prod.fst ∧
      ∃ a', doCache marshalBid marshalString putJson rangeOrder a bids vast = some a' ∧
        backMapOf (labelledBatch marshalBid marshalString a bids vast) PayloadType.TypeJSON
          (putJson (prepareCache marshalBid marshalString a bids vast).toCache) a'.cacheIds ∧
        backMapOf (labelledBatch marshalBid marshalString a bids vast) PayloadType.TypeXML
          (putJson (prepareCache marshalBid marshalString a bids vast).toCache)
          a'.vastCacheIds := by
  have hprep := prepareCache_eq marshalBid marshalString a bids vast
  have htype := artifactsOfAll_type marshalBid marshalString bids vast
    (perBidderWinners a.winningBidsByBidder)
  rw [hprep] at hlen ⊢
  refine ⟨rfl, ?_⟩
  generalize hL : labelledBatch marshalBid marshalString a bids vast = L at hlen ⊢
  have hLdef : artifactsOfAll marshalBid marshalString bids vast
      (perBidderWinners a.winningBidsByBidder) = L := hL
  rw [hLdef] at htype
  generalize hids : putJson (walkOf L).toCache = ids at hlen ⊢
  have hlen' : ids.length = L.length := by
    rw [hlen]; simp [walkOf]
  obtain ⟨mJ, hmJ, hspecJ⟩ := fillIds_backMapOf L PayloadType.TypeJSON ids
    (rangeOrder (indicesFrom PayloadType.TypeJSON 0 L)) (horder _) hlen'
  obtain ⟨mV, hmV, hspecV⟩ := fillIds_backMapOf L PayloadType.TypeXML ids
    (rangeOrder (indicesFrom PayloadType.TypeXML 0 L)) (horder _) hlen'
  have hnoJ : bids = false → backMapOf L PayloadType.TypeJSON ids [] := by
    intro hb
    apply backMapOf_nil
    intro e he hJ
    have := (htype e he).1 hJ
    rw [hb] at this
    cases this
  have hnoV : vast = false → backMapOf L PayloadType.TypeXML ids [] := by
    intro hv
    apply backMapOf_nil
    intro e he hX
    have := (htype e he).2 hX
    rw [hv] at this
    cases this
  cases bids <;> cases vast
  · refine ⟨a, by simp [doCache], ?_, ?_⟩
    · rw [hbids rfl]; exact hnoJ rfl
    · rw [hvast rfl]; exact hnoV rfl
  · refine ⟨{ a with vastCacheIds := mV }, ?_, ?_, hspecV⟩
    · simp only [doCache, Bool.not_false, Bool.not_true, Bool.and_false, Bool.false_eq_true,
        if_false, if_true, Option.some_bind]
      rw [hprep, hL, hids]
      simp only [walkOf] at hmV ⊢
      rw [hmV]; rfl
    · show backMapOf L PayloadType.TypeJSON ids a.cacheIds
      rw [hbids rfl]; exact hnoJ rfl
  · refine ⟨{ a with cacheIds := mJ }, ?_, hspecJ, ?_⟩
    · simp only [doCache, Bool.not_false, Bool.not_true, Bool.false_and, Bool.false_eq_true,
        if_false, if_true]
      rw [hprep, hL, hids]
      simp only [walkOf] at hmJ ⊢
      rw [hmJ]; rfl
    · show backMapOf L PayloadType.TypeXML ids a.vastCacheIds
      rw [hvast rfl]; exact hnoV rfl
  · refine ⟨{ a with cacheIds := mJ, vastCacheIds := mV }, ?_, hspecJ, hspecV⟩
    simp only [doCache, Bool.not_true, Bool.false_and, Bool.false_eq_true, if_false, if_true]
    rw [hprep, hL, hids]
    simp only [walkOf] at hmJ hmV ⊢
    rw [hmJ, hmV]; rfl

theorem doCache_back_maps_witness :
    doCache (fun b => some (exEncBid b)) (fun x => some (exEncString x)) exPutJson
        List.reverse exAuction true true =
      some { exAuction with
        cacheIds := [(bidA.val.bid, "id1")]
        vastCacheIds := [(bidB.val.bid, "id3")] } ∧
    ∃ a', doCache (fun b => some (exEncBid b)) (fun x => some (exEncString x)) exPutJson
        List.reverse exAuction true true = some a' ∧
      backMapOf
        (labelledBatch (fun b => some (exEncBid b)) (fun x => some (exEncString x)) exAuction
          true true)
        PayloadType.TypeJSON
        (exPutJson (prepareCache (fun b => some (exEncBid b)) (fun x => some (exEncString x))
          exAuction true true).toCache)
        a'.cacheIds ∧
      backMapOf
        (labelledBatch (fun b => some (exEncBid b)) (fun x => some (exEncString x)) exAuction
          true true)
        PayloadType.TypeXML
        (exPutJson (prepareCache (fun b => some (exEncBid b)) (fun x => some (exEncString x))
          exAuction true true).toCache)
        a'.vastCacheIds :=
  ⟨by decide!,
    (doCache_back_maps (fun b => some (exEncBid b)) (fun x => some (exEncString x)) exPutJson
      List.reverse exAuction true true (fun m => List.reverse_perm m) (by decide!)
      (fun h => by cases h) (fun h => by cases h)).2⟩

theorem prepareCache_toCache (marshalBid : Bid → Option String)
    (marshalString : String → Option String) (encBid : Bid → String)
    (encString : String → String) (a : auction) (bids vast : Bool)
    (hbid : ∀ b, marshalBid b = some (encBid b))
    (hstring : ∀ x, marshalString x = some (encString x)) :
    (prepareCache marshalBid marshalString a bids vast).toCache =
      expectedBatch encBid encString a bids vast := by
  rw [prepareCache_eq]
  unfold walkOf labelledBatch expectedBatch
  simp only []
  induction perBidderWinners a.winningBidsByBidder with
  | nil => rfl
  | cons top rest ih =>
    simp only [artifactsOfAll, List.map_append, ih, List.flatMap_cons]
    congr 1
    simp only [artifactsOf, hbid, hstring]
    cases bids <;> by_cases hv : vast = true ∧ top.val.bidType = BidType.BidTypeVideo <;>
      simp [hv]

/-- C6: when the flags are not both false and serialization does not fail, the
batch `doCache` builds and submits holds, for every per-bidder winning bid in
visiting order, the JSON-typed serialization of the bid exactly when bids are
persisted, directly followed by the XML-typed `makeVAST` of the bid exactly
when VAST is persisted and the bid is a video bid, and nothing else: the batch
built is that batch, the outcome of `doCache` is computed from the reply of the
cache store to that batch, and a cache store that answers that batch only
gives the same outcome. -/
theorem doCache_batch (marshalBid : Bid → Option String)
    (marshalString : String → Option String) (encBid : Bid → String)
    (encString : String → String) (putJson : List Cacheable → List String)
    (rangeOrder : GoMap Nat (Ptr Bid) → GoMap Nat (Ptr Bid)) (a : auction) (bids vast : Bool)
    (hflags : bids = true ∨ vast = true)
    (hbid : ∀ b, marshalBid b = some (encBid b))
    (hstring : ∀ x, marshalString x = some (encString x)) :
    (prepareCache marshalBid marshalString a bids vast).toCache =
        expectedBatch encBid encString a bids vast ∧
      doCache marshalBid marshalString putJson rangeOrder a bids vast =
        ((if bids then
            (fillIds (putJson (expectedBatch encBid encString a bids vast))
              (rangeOrder (prepareCache marshalBid marshalString a bids vast).bidIndices)
              []).map (fun m => { a with cacheIds := m })
          else some a).bind (fun a1 =>
            if vast then
              (fillIds (putJson (expectedBatch encBid encString a bids vast))
                (rangeOrder (prepareCache marshalBid marshalString a bids vast).vastIndices)
                []).map (fun m => { a1 with vastCacheIds := m })
            else some a1)) ∧
      doCache marshalBid marshalString putJson rangeOrder a bids vast =
        doCache marshalBid marshalString
          (fun batch =>
            if batch = expectedBatch encBid encString a bids vast then putJson batch else [])
          rangeOrder a bids vast := by
  have hbatch := prepareCache_toCache marshalBid marshalString encBid encString a bids vast
    hbid hstring
  have hcond : ¬ ((!bids && !vast) = true) := by
    rcases hflags with h | h <;> simp [h]
  have hrun : ∀ store : List Cacheable → List String,
      doCache marshalBid marshalString store rangeOrder a bids vast =
        ((if bids then
            (fillIds (store (expectedBatch encBid encString a bids vast))
              (rangeOrder (prepareCache marshalBid marshalString a bids vast).bidIndices)
              []).map (fun m => { a with cacheIds := m })
          else some a).bind (fun a1 =>
            if vast then
              (fillIds (store (expectedBatch encBid encString a bids vast))
                (rangeOrder (prepareCache marshalBid marshalString a bids vast).vastIndices)
                []).map (fun m => { a1 with vastCacheIds := m })
            else some a1)) := by
    intro store
    unfold doCache
    rw [if_neg hcond]
    simp only [hbatch]
  refine ⟨hbatch, hrun putJson, ?_⟩
  rw [hrun putJson, hrun]
  simp only [if_true]

theorem doCache_batch_witness :
    (prepareCache (fun b => some (exEncBid b)) (fun x => some (exEncString x)) exAuction
        true true).toCache =
      [⟨PayloadType.TypeJSON, "bid:bid-a"⟩, ⟨PayloadType.TypeJSON, "bid:bid-b"⟩,
        ⟨PayloadType.TypeXML,
          "str:<VAST version=\"3.0\"><Ad><Wrapper><AdSystem>prebid.org wrapper</AdSystem><VASTAdTagURI><![CDATA[http://x.com/ad]]></VASTAdTagURI><Impression></Impression><Creatives></Creatives></Wrapper></Ad></VAST>"⟩] ∧
      doCache (fun b => some (exEncBid b)) (fun x => some (exEncString x)) exEchoStore
          (fun m => m) exAuction true true =
        some { exAuction with
          cacheIds := [(bidA.val.bid, "bid:bid-a"), (bidB.val.bid, "bid:bid-b")]
          vastCacheIds := [(bidB.val.bid,
            "str:<VAST version=\"3.0\"><Ad><Wrapper><AdSystem>prebid.org wrapper</AdSystem><VASTAdTagURI><![CDATA[http://x.com/ad]]></VASTAdTagURI><Impression></Impression><Creatives></Creatives></Wrapper></Ad></VAST>")] } :=
  ⟨(doCache_batch (fun b => some (exEncBid b)) (fun x => some (exEncString x)) exEncBid
      exEncString exEchoStore (fun m => m) exAuction true true (Or.inl rfl) (fun _ => rfl)
      (fun _ => rfl)).1.trans (by decide!),
    (doCache_batch (fun b => some (exEncBid b)) (fun x => some (exEncString x)) exEncBid
      exEncString exEchoStore (fun m => m) exAuction true true (Or.inl rfl) (fun _ => rfl)
      (fun _ => rfl)).2.1.trans (by decide!)⟩

/-- C7: `makeVAST` returns the bid's `AdM` unchanged when it is not empty,
whatever the `NURL`; when `AdM` is empty it returns the VAST 3.0 wrapper
document whose ad-tag-URI content is exactly the `NURL`. -/
theorem makeVAST_spec (bid : Ptr Bid) :
    (bid.val.AdM ≠ "" → makeVAST bid = bid.val.AdM) ∧
      (bid.val.AdM = "" → makeVAST bid =
        "<VAST version=\"3.0\"><Ad><Wrapper><AdSystem>prebid.org wrapper</AdSystem><VASTAdTagURI><![CDATA["
          ++ bid.val.NURL ++
          "]]></VASTAdTagURI><Impression></Impression><Creatives></Creatives></Wrapper></Ad></VAST>") := by
  constructor
  · intro h
    simp [makeVAST, h]
  · intro h
    simp [makeVAST, h, String.append_assoc]

theorem makeVAST_spec_witness :
    makeVAST bidB.val.bid =
        "<VAST version=\"3.0\"><Ad><Wrapper><AdSystem>prebid.org wrapper</AdSystem><VASTAdTagURI><![CDATA[http://x.com/ad]]></VASTAdTagURI><Impression></Impression><Creatives></Creatives></Wrapper></Ad></VAST>" ∧
      makeVAST bidB2.val.bid = "<VAST/>" :=
  ⟨((makeVAST_spec bidB.val.bid).2 rfl).trans (by decide!),
    ((makeVAST_spec bidB2.val.bid).1 (by decide)).trans rfl⟩

/-! ## The MobileFuse adapter: `MakeBids` -/

/-- C8, evaluated on the code: for a request whose video impression `imp-2` is
not the first impression, a successful response with a bid for `imp-2` gets
the tag banner, read off the first impression, although the impression the bid
references carries video. -/
theorem MakeBids_tags_by_first_imp :
    MakeBids exUnmarshal exRequest exOutgoing ⟨200, exBody⟩ =
        some (some ⟨[⟨exBid, BidType.BidTypeBanner⟩]⟩, []) ∧
      (∃ imp ∈ exRequest.Imp, imp.ID = exBid.ImpID ∧ imp.Video ≠ none) := by
  constructor
  · decide!
  · exact ⟨⟨"imp-2", none, some ⟨"mp4"⟩, "", none⟩, by simp [exRequest], rfl, by simp⟩

/-- C9: a response with status 204 yields no bidder response and no errors,
whatever the requests and the body. -/
theorem MakeBids_no_content (unmarshal : String → Except String BidResponse)
    (incomingRequest : BidRequest) (outgoingRequest : RequestData) (response : ResponseData)
    (hstatus : response.StatusCode = 204) :
    MakeBids unmarshal incomingRequest outgoingRequest response = some (none, []) := by
  simp [MakeBids, hstatus, StatusNoContent]

theorem MakeBids_no_content_witness :
    MakeBids exUnmarshal exRequest exOutgoing ⟨204, exBody⟩ = some (none, []) :=
  MakeBids_no_content exUnmarshal exRequest exOutgoing ⟨204, exBody⟩ rfl

/-- C10: a response with status 400 yields no bids and the single error
`BadInput`; a response whose status is neither a 2xx nor a 4xx status yields no
bids and the single error `BadServerResponse`; the message is
`Unexpected status code: <code>.` and the result does not depend on the parser
or the body. -/
theorem MakeBids_error_status (unmarshal : String → Except String BidResponse)
    (incomingRequest : BidRequest) (outgoingRequest : RequestData) (response : ResponseData) :
    (response.StatusCode = 400 →
        MakeBids unmarshal incomingRequest outgoingRequest response =
          some (none, [AdapterError.BadInput "Unexpected status code: 400."])) ∧
      (¬ (200 ≤ response.StatusCode ∧ response.StatusCode ≤ 299) →
        ¬ (400 ≤ response.StatusCode ∧ response.StatusCode ≤ 499) →
        MakeBids unmarshal incomingRequest outgoingRequest response =
          some (none, [AdapterError.BadServerResponse
            ("Unexpected status code: " ++ toString response.StatusCode ++ ".")])) := by
  constructor
  · intro h
    have h204 : ¬ ((400 : Int) = 204) := by decide
    have hmsg : "Unexpected status code: " ++ toString (400 : Int) ++ "." =
        "Unexpected status code: 400." := by decide
    simp only [MakeBids, h, StatusNoContent, StatusBadRequest, h204, if_false, if_true, hmsg]
  · intro h2 h4
    have h204 : response.StatusCode ≠ 204 := by omega
    have h400 : response.StatusCode ≠ 400 := by omega
    have h200 : response.StatusCode ≠ 200 := by omega
    simp [MakeBids, StatusNoContent, StatusBadRequest, StatusOK, h204, h400, h200]

theorem MakeBids_error_status_witness :
    MakeBids exUnmarshal exRequest exOutgoing ⟨400, exBody⟩ =
        some (none, [AdapterError.BadInput "Unexpected status code: 400."]) ∧
      MakeBids exUnmarshal exRequest exOutgoing ⟨500, exBody⟩ =
        some (none, [AdapterError.BadServerResponse "Unexpected status code: 500."]) :=
  ⟨(MakeBids_error_status exUnmarshal exRequest exOutgoing ⟨400, exBody⟩).1 rfl,
    ((MakeBids_error_status exUnmarshal exRequest exOutgoing ⟨500, exBody⟩).2
      (by decide) (by decide)).trans (by decide)⟩

/-- C11, as it fails on the code: status 404 is a client-error status, and
`MakeBids` classifies it as a bad server response, not as bad input. -/
theorem MakeBids_not_found_counterexample :
    MakeBids exUnmarshal exRequest exOutgoing ⟨404, exBody⟩ =
        some (none, [AdapterError.BadServerResponse "Unexpected status code: 404."]) ∧
      ¬ ∃ msg, MakeBids exUnmarshal exRequest exOutgoing ⟨404, exBody⟩ =
        some (none, [AdapterError.BadInput msg]) := by
  have h : MakeBids exUnmarshal exRequest exOutgoing ⟨404, exBody⟩ =
      some (none, [AdapterError.BadServerResponse "Unexpected status code: 404."]) := by
    decide
  refine ⟨h, ?_⟩
  rintro ⟨msg, hmsg⟩
  rw [h] at hmsg
  simp at hmsg

/-- C11, amended: for a client-error status (400 to 499) `MakeBids` returns no
bids and exactly one classified error, which is `BadInput` when the status is
400 and `BadServerResponse` for every other status of the range. -/
theorem MakeBids_client_error (unmarshal : String → Except String BidResponse)
    (incomingRequest : BidRequest) (outgoingRequest : RequestData) (response : ResponseData)
    (hlo : 400 ≤ response.StatusCode) (hhi : response.StatusCode ≤ 499) :
    (response.StatusCode = 400 →
        MakeBids unmarshal incomingRequest outgoingRequest response =
          some (none, [AdapterError.BadInput
            ("Unexpected status code: " ++ toString response.StatusCode ++ ".")])) ∧
      (response.StatusCode ≠ 400 →
        MakeBids unmarshal incomingRequest outgoingRequest response =
          some (none, [AdapterError.BadServerResponse
            ("Unexpected status code: " ++ toString response.StatusCode ++ ".")])) := by
  have h204 : response.StatusCode ≠ 204 := by omega
  have h200 : response.StatusCode ≠ 200 := by omega
  constructor
  · intro h
    simp [MakeBids, StatusNoContent, StatusBadRequest, h]
  · intro h
    simp [MakeBids, StatusNoContent, StatusBadRequest, StatusOK, h204, h200, h]

theorem MakeBids_client_error_witness :
    MakeBids exUnmarshal exRequest exOutgoing ⟨400, exBody⟩ =
        some (none, [AdapterError.BadInput "Unexpected status code: 400."]) ∧
      MakeBids exUnmarshal exRequest exOutgoing ⟨404, exBody⟩ =
        some (none, [AdapterError.BadServerResponse "Unexpected status code: 404."]) :=
  ⟨((MakeBids_client_error exUnmarshal exRequest exOutgoing ⟨400, exBody⟩
      (by decide) (by decide)).1 rfl).trans (by decide),
    ((MakeBids_client_error exUnmarshal exRequest exOutgoing ⟨404, exBody⟩
      (by decide) (by decide)).2 (by decide)).trans (by decide)⟩

/-! ## The MobileFuse adapter: `MakeRequests` -/

theorem validImpsLoop_none (ext : ExtImpMobileFuse) (imps validImps : List Imp)
    (hnone : ∀ imp ∈ imps, imp.Banner = none ∧ imp.Video = none) :
    validImpsLoop ext imps validImps = validImps := by
  induction imps with
  | nil => rfl
  | cons imp rest ih =>
    have h := hnone imp (List.mem_cons_self _ _)
    simp only [validImpsLoop, h.1, h.2, ne_eq, not_true_eq_false, or_self, if_false]
    exact ih (fun x hx => hnone x (List.mem_cons_of_mem _ hx))

theorem validImpsLoop_first (ext : ExtImpMobileFuse) (pre post validImps : List Imp) (imp : Imp)
    (hpre : ∀ x ∈ pre, x.Banner = none ∧ x.Video = none)
    (himp : imp.Banner ≠ none ∨ imp.Video ≠ none) :
    validImpsLoop ext (pre ++ imp :: post) validImps = validImps ++ [rewrittenImp ext imp] := by
  induction pre with
  | nil =>
    simp only [List.nil_append, validImpsLoop, himp, if_true, rewrittenImp]
    congr 2
    by_cases hboth : imp.Banner ≠ none ∧ imp.Video ≠ none
    · simp [hboth]
    · simp only [hboth, if_false]
  | cons x rest ih =>
    have h := hpre x (List.mem_cons_self _ _)
    simp only [List.cons_append, validImpsLoop, h.1, h.2, ne_eq, not_true_eq_false, or_self,
      if_false]
    exact ih (fun y hy => hpre y (List.mem_cons_of_mem _ hy))

/-- The impressions of a request either all lack banner and video, or split at
the first one that has a banner or a video. -/
theorem first_valid_split (imps : List Imp) :
    (∀ imp ∈ imps, imp.Banner = none ∧ imp.Video = none) ∨
      ∃ pre imp post, imps = pre ++ imp :: post ∧
        (∀ x ∈ pre, x.Banner = none ∧ x.Video = none) ∧
        (imp.Banner ≠ none ∨ imp.Video ≠ none) := by
  induction imps with
  | nil => exact Or.inl (by simp)
  | cons imp rest ih =>
    by_cases himp : imp.Banner ≠ none ∨ imp.Video ≠ none
    · exact Or.inr ⟨[], imp, rest, rfl, by simp, himp⟩
    · have hno : imp.Banner = none ∧ imp.Video = none := by
        simp only [ne_eq, not_or, not_not] at himp
        exact himp
      rcases ih with h | ⟨pre, x, post, hsplit, hpre, hx⟩
      · left
        intro y hy
        rcases List.mem_cons.1 hy with hy | hy
        · subst hy; exact hno
        · exact h y hy
      · right
        refine ⟨imp :: pre, x, post, by simp [hsplit], ?_, hx⟩
        intro y hy
        rcases List.mem_cons.1 hy with hy | hy
        · subst hy; exact hno
        · exact hpre y hy

/-- C12: when no impression of the request has a banner or a video (also when
the request has no impressions), `MakeRequests` returns no outbound request
and at least one error; the errors are the single error `No valid imps` when
the extension and the endpoint were resolved without error. -/
theorem MakeRequests_no_valid_imps (lib : Library) (request : BidRequest)
    (hnone : ∀ imp ∈ request.Imp, imp.Banner = none ∧ imp.Video = none) :
    (MakeRequests lib request).1 = [] ∧ (MakeRequests lib request).2 ≠ [] ∧
      ((getFirstMobileFuseExtension lib request).2 = [] →
        (∃ endpoint,
          getEndpoint lib (getFirstMobileFuseExtension lib request).1 = Except.ok endpoint) →
        (MakeRequests lib request).2 = [AdapterError.Other "No valid imps"]) := by
  have hvalid : ∀ ext, getValidImps request ext = [] := fun ext =>
    validImpsLoop_none ext request.Imp [] hnone
  unfold MakeRequests makeRequest
  simp only []
  by_cases herr : (getFirstMobileFuseExtension lib request).2 = []
  · simp only [herr, ne_eq, not_true_eq_false, if_false, List.nil_append]
    cases hend : getEndpoint lib (getFirstMobileFuseExtension lib request).1 with
    | error err => simp
    | ok endpoint => simp [hvalid]
  · simp [herr]

theorem MakeRequests_no_valid_imps_witness :
    (MakeRequests exLib exRequestNoFormat).1 = [] ∧
      (MakeRequests exLib exRequestNoFormat).2 = [AdapterError.Other "No valid imps"] :=
  ⟨(MakeRequests_no_valid_imps exLib exRequestNoFormat (by decide)).1,
    (MakeRequests_no_valid_imps exLib exRequestNoFormat (by decide)).2.2 (by decide)
      ⟨"http://mfx.example/openrtb?pub_id=42", by rfl⟩⟩

theorem getValidImps_cases (bidRequest : BidRequest) (ext : ExtImpMobileFuse) :
    ((∀ imp ∈ bidRequest.Imp, imp.Banner = none ∧ imp.Video = none) ∧
        getValidImps bidRequest ext = []) ∨
      ∃ pre imp post, bidRequest.Imp = pre ++ imp :: post ∧
        (∀ x ∈ pre, x.Banner = none ∧ x.Video = none) ∧
        (imp.Banner ≠ none ∨ imp.Video ≠ none) ∧
        getValidImps bidRequest ext = [rewrittenImp ext imp] := by
  rcases first_valid_split bidRequest.Imp with h | ⟨pre, imp, post, hsplit, hpre, himp⟩
  · exact Or.inl ⟨h, validImpsLoop_none ext bidRequest.Imp [] h⟩
  · refine Or.inr ⟨pre, imp, post, hsplit, hpre, himp, ?_⟩
    unfold getValidImps
    rw [hsplit, validImpsLoop_first ext pre post [] imp hpre himp]
    rfl

/-- What `makeRequest` has done when it returns request data. -/
theorem makeRequest_some (lib : Library) (bidRequest : BidRequest) (rd : RequestData)
    (hrd : (makeRequest lib bidRequest).1 = some rd) :
    (makeRequest lib bidRequest).2 = [] ∧
      (getFirstMobileFuseExtension lib bidRequest).2 = [] ∧
      getValidImps bidRequest (getFirstMobileFuseExtension lib bidRequest).1 ≠ [] ∧
      getEndpoint lib (getFirstMobileFuseExtension lib bidRequest).1 = Except.ok rd.Uri ∧
      lib.marshalBidRequest
          { bidRequest with
            Imp := getValidImps bidRequest (getFirstMobileFuseExtension lib bidRequest).1 } =
        Except.ok rd.Body := by
  unfold makeRequest at hrd ⊢
  simp only [] at hrd ⊢
  by_cases herr : (getFirstMobileFuseExtension lib bidRequest).2 = []
  · simp only [herr, ne_eq, not_true_eq_false, if_false, List.nil_append] at hrd ⊢
    cases hend : getEndpoint lib (getFirstMobileFuseExtension lib bidRequest).1 with
    | error err => rw [hend] at hrd; simp at hrd
    | ok endpoint =>
      rw [hend] at hrd
      simp only [] at hrd ⊢
      by_cases hlen :
          (getValidImps bidRequest (getFirstMobileFuseExtension lib bidRequest).1).length = 0
      · rw [if_pos hlen] at hrd; simp at hrd
      · rw [if_neg hlen] at hrd ⊢
        have hne : getValidImps bidRequest (getFirstMobileFuseExtension lib bidRequest).1 ≠ [] :=
          fun h => hlen (by rw [h]; rfl)
        cases hm : lib.marshalBidRequest
            { bidRequest with
              Imp := getValidImps bidRequest (getFirstMobileFuseExtension lib bidRequest).1 } with
        | error err => rw [hm] at hrd; simp at hrd
        | ok body =>
          rw [hm] at hrd
          simp only [Option.some.injEq] at hrd
          subst hrd
          exact ⟨rfl, trivial, hne, rfl, rfl⟩
  · simp [herr] at hrd

theorem MakeRequests_some (lib : Library) (request : BidRequest) (rd : RequestData)
    (hok : (MakeRequests lib request).1 = [some rd]) :
    (makeRequest lib request).1 = some rd := by
  unfold MakeRequests at hok
  simp only [] at hok
  by_cases herr : (makeRequest lib request).2 = []
  · simpa [herr] using hok
  · simp [herr] at hok

/-- C13, as it fails on the code: of two impressions that both have a banner,
the outbound request carries the first only; the second valid impression is
not carried. -/
theorem MakeRequests_one_imp_counterexample :
    MakeRequests exLib exRequestTwo =
        ([some ⟨"POST", "http://mfx.example/openrtb?pub_id=42", "imps:imp-1/7",
          [("Content-Type", "application/json;charset=utf-8"),
            ("Accept", "application/json")]⟩], []) ∧
      getValidImps exRequestTwo (getFirstMobileFuseExtension exLib exRequestTwo).1 =
        [⟨"imp-1", some ⟨"300x250"⟩, none, "7", none⟩] ∧
      everyValidImp exRequestTwo (getFirstMobileFuseExtension exLib exRequestTwo).1 =
        [⟨"imp-1", some ⟨"300x250"⟩, none, "7", none⟩,
          ⟨"imp-2", some ⟨"728x90"⟩, none, "7", none⟩] := by
  refine ⟨by decide, by decide, by decide⟩

/-- C13, amended: when `MakeRequests` succeeds, the impression list of the
outbound request consists of exactly one impression, the first impression of
the request that has a banner or a video, rewritten; no impression without a
supported format is carried, and no later impression is. -/
theorem MakeRequests_carries_first_valid_imp (lib : Library) (request : BidRequest)
    (rd : RequestData) (hok : (MakeRequests lib request).1 = [some rd]) :
    ∃ pre imp post, request.Imp = pre ++ imp :: post ∧
      (∀ x ∈ pre, x.Banner = none ∧ x.Video = none) ∧
      (imp.Banner ≠ none ∨ imp.Video ≠ none) ∧
      getValidImps request (getFirstMobileFuseExtension lib request).1 =
        [rewrittenImp (getFirstMobileFuseExtension lib request).1 imp] ∧
      lib.marshalBidRequest
          { request with
            Imp := [rewrittenImp (getFirstMobileFuseExtension lib request).1 imp] } =
        Except.ok rd.Body := by
  obtain ⟨-, -, hne, -, hbody⟩ := makeRequest_some lib request rd (MakeRequests_some lib request rd hok)
  rcases getValidImps_cases request (getFirstMobileFuseExtension lib request).1 with
    ⟨-, h⟩ | ⟨pre, imp, post, hsplit, hpre, himp, hvalid⟩
  · exact absurd h hne
  · refine ⟨pre, imp, post, hsplit, hpre, himp, hvalid, ?_⟩
    rw [hvalid] at hbody
    exact hbody

theorem MakeRequests_carries_first_valid_imp_witness :
    ∃ pre imp post, exRequestTwo.Imp = pre ++ imp :: post ∧
      (∀ x ∈ pre, x.Banner = none ∧ x.Video = none) ∧
      (imp.Banner ≠ none ∨ imp.Video ≠ none) ∧
      getValidImps exRequestTwo (getFirstMobileFuseExtension exLib exRequestTwo).1 =
        [rewrittenImp (getFirstMobileFuseExtension exLib exRequestTwo).1 imp] ∧
      exLib.marshalBidRequest
          { exRequestTwo with
            Imp := [rewrittenImp (getFirstMobileFuseExtension exLib exRequestTwo).1 imp] } =
        Except.ok "imps:imp-1/7" :=
  MakeRequests_carries_first_valid_imp exLib exRequestTwo
    ⟨"POST", "http://mfx.example/openrtb?pub_id=42", "imps:imp-1/7",
      [("Content-Type", "application/json;charset=utf-8"), ("Accept", "application/json")]⟩
    (by decide)

/-- C14: every impression `getValidImps` returns comes from an impression of
the request and carries exactly one of banner and video: when the input had a
banner, the banner is kept unchanged and there is no video (the video of an
impression with both is dropped); when it had only a video, the video is kept
unchanged. -/
theorem getValidImps_single_format (bidRequest : BidRequest) (ext : ExtImpMobileFuse)
    (out : Imp) (hout : out ∈ getValidImps bidRequest ext) :
    ∃ imp ∈ bidRequest.Imp, out.ID = imp.ID ∧
      (imp.Banner ≠ none → out.Banner = imp.Banner ∧ out.Video = none) ∧
      (imp.Banner = none → out.Banner = none ∧ out.Video = imp.Video) ∧
      ((out.Banner ≠ none ∧ out.Video = none) ∨ (out.Banner = none ∧ out.Video ≠ none)) := by
  rcases getValidImps_cases bidRequest ext with
    ⟨-, h⟩ | ⟨pre, imp, post, hsplit, -, himp, hvalid⟩
  · rw [h] at hout; simp at hout
  · rw [hvalid] at hout
    simp only [List.mem_singleton] at hout
    subst hout
    refine ⟨imp, by rw [hsplit]; simp, rfl, ?_, ?_, ?_⟩
    · intro hb
      refine ⟨rfl, ?_⟩
      by_cases hv : imp.Video = none
      · simp [rewrittenImp, hv]
      · simp [rewrittenImp, hb, hv]
    · intro hb
      refine ⟨hb, ?_⟩
      simp [rewrittenImp, hb]
    · by_cases hb : imp.Banner = none
      · right
        have hv : imp.Video ≠ none := by
          rcases himp with h | h
          · exact absurd hb h
          · exact h
        exact ⟨hb, by simp [rewrittenImp, hb, hv]⟩
      · left
        refine ⟨hb, ?_⟩
        by_cases hv : imp.Video = none
        · simp [rewrittenImp, hv]
        · simp [rewrittenImp, hb, hv]

theorem getValidImps_single_format_witness :
    ∃ imp ∈ exRequestTwo.Imp, (⟨"imp-1", some ⟨"300x250"⟩, none, "7", none⟩ : Imp).ID = imp.ID ∧
      (imp.Banner ≠ none →
        (⟨"imp-1", some ⟨"300x250"⟩, none, "7", none⟩ : Imp).Banner = imp.Banner ∧
        (⟨"imp-1", some ⟨"300x250"⟩, none, "7", none⟩ : Imp).Video = none) ∧
      (imp.Banner = none →
        (⟨"imp-1", some ⟨"300x250"⟩, none, "7", none⟩ : Imp).Banner = none ∧
        (⟨"imp-1", some ⟨"300x250"⟩, none, "7", none⟩ : Imp).Video = imp.Video) ∧
      (((⟨"imp-1", some ⟨"300x250"⟩, none, "7", none⟩ : Imp).Banner ≠ none ∧
          (⟨"imp-1", some ⟨"300x250"⟩, none, "7", none⟩ : Imp).Video = none) ∨
        ((⟨"imp-1", some ⟨"300x250"⟩, none, "7", none⟩ : Imp).Banner = none ∧
          (⟨"imp-1", some ⟨"300x250"⟩, none, "7", none⟩ : Imp).Video ≠ none)) :=
  getValidImps_single_format exRequestTwo ⟨7, 42, ""⟩
    ⟨"imp-1", some ⟨"300x250"⟩, none, "7", none⟩ (by decide)

/-- C15: every impression `getValidImps` returns has no extension and has the
decimal string of the extension's `PlacementId` as its `TagID`, whatever the
input impression had; and these are the impressions of the request that
`makeRequest` serializes as the body of the outbound request. -/
theorem getValidImps_strips_ext (lib : Library) (bidRequest : BidRequest)
    (ext : ExtImpMobileFuse) :
    (∀ out ∈ getValidImps bidRequest ext,
        out.Ext = none ∧ out.TagID = toString ext.PlacementId) ∧
      (∀ rd, (makeRequest lib bidRequest).1 = some rd →
        lib.marshalBidRequest
            { bidRequest with
              Imp := getValidImps bidRequest (getFirstMobileFuseExtension lib bidRequest).1 } =
          Except.ok rd.Body) := by
  constructor
  · intro out hout
    rcases getValidImps_cases bidRequest ext with ⟨-, h⟩ | ⟨pre, imp, post, -, -, -, hvalid⟩
    · rw [h] at hout; simp at hout
    · rw [hvalid] at hout
      simp only [List.mem_singleton] at hout
      subst hout
      exact ⟨rfl, rfl⟩
  · intro rd hrd
    exact (makeRequest_some lib bidRequest rd hrd).2.2.2.2

theorem getValidImps_strips_ext_witness :
    (⟨"imp-1", some ⟨"300x250"⟩, none, "7", none⟩ : Imp).Ext = none ∧
      (⟨"imp-1", some ⟨"300x250"⟩, none, "7", none⟩ : Imp).TagID =
        toString (⟨7, 42, ""⟩ : ExtImpMobileFuse).PlacementId :=
  (getValidImps_strips_ext exLib exRequestTwo ⟨7, 42, ""⟩).1
    ⟨"imp-1", some ⟨"300x250"⟩, none, "7", none⟩ (by decide)

theorem firstExtensionLoop_errs (lib : Library) (imps : List Imp) (ext : ExtImpMobileFuse)
    (errs : List AdapterError) :
    ∃ more, (firstExtensionLoop lib imps ext errs).2 = errs ++ more := by
  induction imps generalizing ext errs with
  | nil => exact ⟨[], by simp [firstExtensionLoop]⟩
  | cons imp rest ih =>
    unfold firstExtensionLoop
    cases h1 : lib.unmarshalExtImpBidder imp.Ext with
    | error err =>
      obtain ⟨more, hmore⟩ := ih ext (errs ++ [AdapterError.Other err])
      exact ⟨AdapterError.Other err :: more, by simp [hmore]⟩
    | ok e =>
      simp only []
      cases h2 : lib.unmarshalExtImpMobileFuse e.Bidder ext with
      | mk updated failure =>
        cases failure with
        | none => exact ⟨[], by simp⟩
        | some err =>
          obtain ⟨more, hmore⟩ := ih updated (errs ++ [AdapterError.Other err])
          exact ⟨AdapterError.Other err :: more, by simp [hmore]⟩

theorem MakeRequests_of_errs (lib : Library) (request : BidRequest) (err : AdapterError)
    (herr : err ∈ (getFirstMobileFuseExtension lib request).2) :
    (MakeRequests lib request).1 = [] ∧ err ∈ (MakeRequests lib request).2 := by
  have hne : (getFirstMobileFuseExtension lib request).2 ≠ [] := by
    intro h
    rw [h] at herr
    simp at herr
  unfold MakeRequests makeRequest
  simp only [ne_eq, hne, not_false_eq_true, if_true, if_false]
  exact ⟨trivial, herr⟩

/-- C16, as it fails on the code: a malformed extension on the first impression
aborts `MakeRequests` although the second impression carries a well-formed
extension and both impressions have a banner; and a malformed extension on the
second impression, after a well-formed one, is not recorded in the errors. -/
theorem MakeRequests_extension_counterexample :
    MakeRequests exLib exRequestBadFirst =
        ([], [AdapterError.Other "unexpected end of JSON input"]) ∧
      (∃ imp ∈ exRequestBadFirst.Imp, ∃ e,
        exLib.unmarshalExtImpBidder imp.Ext = Except.ok e ∧
        (exLib.unmarshalExtImpMobileFuse e.Bidder ⟨0, 0, ""⟩).2 = none) ∧
      (∃ imp ∈ exRequestBadFirst.Imp, imp.Banner ≠ none ∨ imp.Video ≠ none) ∧
      MakeRequests exLib exRequestBadSecond =
        ([some ⟨"POST", "http://mfx.example/openrtb?pub_id=42", "imps:imp-1/7",
          [("Content-Type", "application/json;charset=utf-8"),
            ("Accept", "application/json")]⟩], []) := by
  refine ⟨by decide, ?_, ?_, by decide⟩
  · exact ⟨⟨"imp-2", some ⟨"728x90"⟩, none, "", some exExt⟩, by simp [exRequestBadFirst],
      ⟨some exBidderBlob⟩, by rfl, by rfl⟩
  · exact ⟨⟨"imp-2", some ⟨"728x90"⟩, none, "", some exExt⟩, by simp [exRequestBadFirst],
      Or.inl (by simp)⟩

/-- C16, amended: when the extension of the first impression of the request
parses, `MakeRequests` takes the extension from that impression without
examining the extension of any later impression, and, when some impression has
a banner or a video, the endpoint resolves and the request serializes, it
returns the outbound request and no errors; when the extension of the first
impression fails to parse, the parse error is among the returned errors and no
outbound request is returned, whatever the later impressions carry. -/
theorem MakeRequests_first_extension (lib : Library) (request : BidRequest) (imp0 : Imp)
    (rest : List Imp) (himps : request.Imp = imp0 :: rest) :
    (∀ e ext, lib.unmarshalExtImpBidder imp0.Ext = Except.ok e →
        lib.unmarshalExtImpMobileFuse e.Bidder ⟨0, 0, ""⟩ = (ext, none) →
        getFirstMobileFuseExtension lib request = (ext, []) ∧
        ((∃ imp ∈ request.Imp, imp.Banner ≠ none ∨ imp.Video ≠ none) →
          ∀ endpoint body, getEndpoint lib ext = Except.ok endpoint →
            lib.marshalBidRequest { request with Imp := getValidImps request ext } =
              Except.ok body →
            MakeRequests lib request =
              ([some ⟨"POST", endpoint, body,
                [("Content-Type", "application/json;charset=utf-8"),
                  ("Accept", "application/json")]⟩], []))) ∧
      (∀ err, lib.unmarshalExtImpBidder imp0.Ext = Except.error err →
        (MakeRequests lib request).1 = [] ∧
        AdapterError.Other err ∈ (MakeRequests lib request).2) ∧
      (∀ e updated err, lib.unmarshalExtImpBidder imp0.Ext = Except.ok e →
        lib.unmarshalExtImpMobileFuse e.Bidder ⟨0, 0, ""⟩ = (updated, some err) →
        (MakeRequests lib request).1 = [] ∧
        AdapterError.Other err ∈ (MakeRequests lib request).2) := by
  refine ⟨?_, ?_, ?_⟩
  · intro e ext h1 h2
    have hfirst : getFirstMobileFuseExtension lib request = (ext, []) := by
      unfold getFirstMobileFuseExtension
      rw [himps]
      unfold firstExtensionLoop
      rw [h1]
      simp only []
      rw [h2]
    refine ⟨hfirst, ?_⟩
    rintro ⟨imp, himp, hvalid⟩ endpoint body hend hbody
    have hne : getValidImps request ext ≠ [] := by
      rcases getValidImps_cases request ext with ⟨hall, -⟩ | ⟨pre, x, post, -, -, -, hv⟩
      · have := hall imp himp
        rcases hvalid with h | h
        · exact absurd this.1 h
        · exact absurd this.2 h
      · rw [hv]; simp
    have hlen : ¬ (getValidImps request ext).length = 0 := by
      intro h
      exact hne (List.length_eq_zero.1 h)
    unfold MakeRequests makeRequest
    simp only [hfirst, ne_eq, not_true_eq_false, if_false, List.nil_append, hend, hlen, hbody,
      if_true]
  · intro err h1
    apply MakeRequests_of_errs
    unfold getFirstMobileFuseExtension
    rw [himps]
    unfold firstExtensionLoop
    rw [h1]
    simp only []
    obtain ⟨more, hmore⟩ := firstExtensionLoop_errs lib rest ⟨0, 0, ""⟩
      ([] ++ [AdapterError.Other err])
    rw [hmore]
    simp
  · intro e updated err h1 h2
    apply MakeRequests_of_errs
    unfold getFirstMobileFuseExtension
    rw [himps]
    unfold firstExtensionLoop
    rw [h1]
    simp only []
    rw [h2]
    simp only []
    obtain ⟨more, hmore⟩ := firstExtensionLoop_errs lib rest updated
      ([] ++ [AdapterError.Other err])
    rw [hmore]
    simp

theorem MakeRequests_first_extension_witness :
    MakeRequests exLib exRequestBadSecond =
        ([some ⟨"POST", "http://mfx.example/openrtb?pub_id=42", "imps:imp-1/7",
          [("Content-Type", "application/json;charset=utf-8"),
            ("Accept", "application/json")]⟩], []) ∧
      ((MakeRequests exLib exRequestBadFirst).1 = [] ∧
        AdapterError.Other "unexpected end of JSON input" ∈
          (MakeRequests exLib exRequestBadFirst).2) :=
  ⟨((MakeRequests_first_extension exLib exRequestBadSecond
        ⟨"imp-1", some ⟨"300x250"⟩, none, "", some exExt⟩
        [⟨"imp-2", some ⟨"728x90"⟩, none, "", some "\x7b"⟩] rfl).1
      ⟨some exBidderBlob⟩ ⟨7, 42, ""⟩ (by rfl) (by rfl)).2
      ⟨⟨"imp-1", some ⟨"300x250"⟩, none, "", some exExt⟩, by simp [exRequestBadSecond],
        Or.inl (by simp)⟩
      "http://mfx.example/openrtb?pub_id=42" "imps:imp-1/7" (by rfl) (by rfl),
    (MakeRequests_first_extension exLib exRequestBadFirst
        ⟨"imp-1", some ⟨"300x250"⟩, none, "", some "\x7b"⟩
        [⟨"imp-2", some ⟨"728x90"⟩, none, "", some exExt⟩] rfl).2.1
      "unexpected end of JSON input" (by rfl)⟩

/-! ## Price rounding -/

theorem mapGet_foldl_mapSet {κ ν : Type} [DecidableEq κ] (f : κ → ν) (l : List κ)
    (m : GoMap κ ν) (k : κ) :
    mapGet (l.foldl (fun m' t => mapSet m' t (f t)) m) k =
      if k ∈ l then some (f k) else mapGet m k := by
  induction l generalizing m with
  | nil => simp
  | cons t rest ih =>
    simp only [List.foldl_cons, ih, mapGet_mapSet, List.mem_cons]
    by_cases hk : k ∈ rest
    · simp [hk]
    · by_cases ht : t = k
      · subst ht; simp [hk]
      · have ht' : ¬ k = t := fun h => ht h.symm
        simp [hk, ht, ht']

theorem setRoundedPrices_eq (GetCpmStringValue : ℚ → PriceGranularity → String × Option String)
    (a : auction) (priceGranularity : PriceGranularity) :
    (setRoundedPrices GetCpmStringValue a priceGranularity).roundedPrices =
      (perBidderWinners a.winningBidsByBidder).foldl
        (fun m' t => mapSet m' t (GetCpmStringValue t.val.bid.val.Price priceGranularity).1)
        [] := by
  unfold setRoundedPrices
  simp only []
  generalize ([] : GoMap (Ptr pbsOrtbBid) String) = m
  induction a.winningBidsByBidder generalizing m with
  | nil => rfl
  | cons e rest ih =>
    simp only [List.foldl_cons, perBidderWinners, List.foldl_append, List.foldl_map]
    exact ih _

/-- C17, as it fails on the code: a winning bid of 25.00, which the rounding
function rejects with an error, still has an entry in `roundedPrices`, the
empty string the rounding function returned with the error. -/
theorem setRoundedPrices_failed_counterexample :
    (exRound bidHigh.val.bid.val.Price exGranularity).2 ≠ none ∧
      bidHigh ∈ perBidderWinners exAuctionHigh.winningBidsByBidder ∧
      mapGet (setRoundedPrices exRound exAuctionHigh exGranularity).roundedPrices bidHigh =
        some "" := by
  refine ⟨by decide!, by decide!, by decide!⟩

/-- C17, amended: after `setRoundedPrices` every per-bidder winning bid has an
entry in `roundedPrices`, the string the rounding function returned for its
price, whether or not the rounding function also returned an error; a bid that
is not a per-bidder winning bid has no entry. -/
theorem setRoundedPrices_entries
    (GetCpmStringValue : ℚ → PriceGranularity → String × Option String) (a : auction)
    (priceGranularity : PriceGranularity) (top : Ptr pbsOrtbBid) :
    (top ∈ perBidderWinners a.winningBidsByBidder →
        mapGet (setRoundedPrices GetCpmStringValue a priceGranularity).roundedPrices top =
          some (GetCpmStringValue top.val.bid.val.Price priceGranularity).1) ∧
      (top ∉ perBidderWinners a.winningBidsByBidder →
        mapGet (setRoundedPrices GetCpmStringValue a priceGranularity).roundedPrices top =
          none) := by
  have hget := mapGet_foldl_mapSet
    (fun t : Ptr pbsOrtbBid => (GetCpmStringValue t.val.bid.val.Price priceGranularity).1)
    (perBidderWinners a.winningBidsByBidder) ([] : GoMap (Ptr pbsOrtbBid) String) top
  rw [setRoundedPrices_eq]
  constructor
  · intro h
    exact hget.trans (if_pos h)
  · intro h
    exact hget.trans ((if_neg h).trans rfl)

theorem setRoundedPrices_entries_witness :
    mapGet (setRoundedPrices exRound exAuctionHigh exGranularity).roundedPrices bidA =
        some "1.50" ∧
      mapGet (setRoundedPrices exRound exAuctionHigh exGranularity).roundedPrices bidHigh =
        some "" ∧
      mapGet (setRoundedPrices exRound exAuctionHigh exGranularity).roundedPrices bidB = none :=
  ⟨((setRoundedPrices_entries exRound exAuctionHigh exGranularity bidA).1 (by decide!)).trans
      (by decide!),
    ((setRoundedPrices_entries exRound exAuctionHigh exGranularity bidHigh).1 (by decide!)).trans
      (by decide!),
    (setRoundedPrices_entries exRound exAuctionHigh exGranularity bidB).2 (by decide!)⟩

/-- C18: `setRoundedPrices` leaves `winningBids` and `winningBidsByBidder`, with
the bids they hold and their prices, exactly as they were, for every rounding
function, failing or not; only `roundedPrices` is assigned (the cache
back-maps are untouched too). -/
theorem setRoundedPrices_frame
    (GetCpmStringValue : ℚ → PriceGranularity → String × Option String) (a : auction)
    (priceGranularity : PriceGranularity) :
    (setRoundedPrices GetCpmStringValue a priceGranularity).winningBids = a.winningBids ∧
      (setRoundedPrices GetCpmStringValue a priceGranularity).winningBidsByBidder =
        a.winningBidsByBidder ∧
      (setRoundedPrices GetCpmStringValue a priceGranularity).cacheIds = a.cacheIds ∧
      (setRoundedPrices GetCpmStringValue a priceGranularity).vastCacheIds = a.vastCacheIds ∧
      (∀ i w, mapGet a.winningBids i = some w →
        ∃ w', mapGet (setRoundedPrices GetCpmStringValue a priceGranularity).winningBids i =
          some w' ∧ w' = w ∧ w'.val.bid.val.Price = w.val.bid.val.Price) :=
  ⟨rfl, rfl, rfl, rfl, fun _ w hw => ⟨w, hw, rfl, rfl⟩⟩

theorem setRoundedPrices_frame_witness :
    mapGet (setRoundedPrices exRound exAuctionHigh exGranularity).winningBids "imp-1" =
      some bidHigh :=
  ((setRoundedPrices_frame exRound exAuctionHigh exGranularity).1 ▸ rfl :
      mapGet (setRoundedPrices exRound exAuctionHigh exGranularity).winningBids "imp-1" =
        mapGet exAuctionHigh.winningBids "imp-1").trans (by decide!)

/-! ## Keys of the winner maps -/

theorem no_entry_of_no_bid (seatBids : GoMap BidderName (Option pbsOrtbSeatBid)) (n : Nat)
    (i : String)
    (hno : ∀ b seatBid x, (b, some seatBid) ∈ seatBids → x ∈ seatBid.bids →
      x.val.bid.val.ImpID ≠ i) :
    mapGet (newAuction seatBids n).winningBids i = none ∧
      mapGet (newAuction seatBids n).winningBidsByBidder i = none := by
  constructor
  · rw [winningBids_newAuction]
    cases he : earliestHighest priceT (bidsFor seatBids i) with
    | none => rfl
    | some e =>
      obtain ⟨hin, -⟩ := earliestHighest_spec priceT _ e he
      obtain ⟨⟨sb, h1, h2⟩, h3⟩ := (mem_bidsFor seatBids i e.1 e.2).1 hin
      exact absurd h3 (hno e.1 sb e.2 h1 h2)
  · unfold newAuction
    simp only [foldl_seatStep]
    rw [foldl_visit_outer_none]
    · rfl
    · intro e he
      obtain ⟨sb, h1, h2⟩ := (mem_allBids seatBids e.1 e.2).1 he
      exact hno e.1 sb e.2 h1 h2

/-- C19, as it fails on the code: for a request with the impressions `imp-1` and
`imp-2`, the adapter hands over a bid that names the impression `imp-9`, and
`newAuction` makes `imp-9` a key of both winner maps. -/
theorem newAuction_foreign_key_counterexample :
    MakeBids (fun _ => Except.ok ⟨"resp-9", [⟨[bidForeign.val.bid.val], "seat-1"⟩]⟩) exRequest
        exOutgoing ⟨200, ""⟩ =
        some (some ⟨[⟨bidForeign.val.bid.val, BidType.BidTypeBanner⟩]⟩, []) ∧
      mapGet (newAuction [("bidderA", some ⟨[bidForeign]⟩)] 2).winningBids "imp-9" =
        some bidForeign ∧
      byBidder (newAuction [("bidderA", some ⟨[bidForeign]⟩)] 2).winningBidsByBidder "imp-9"
        "bidderA" = some bidForeign ∧
      ¬ ∃ imp ∈ exRequest.Imp, imp.ID = "imp-9" := by
  refine ⟨by decide!, by decide!, by decide!, by decide⟩

/-- C19, amended: every impression identifier that is a key of `winningBids` or
of `winningBidsByBidder` is the impression identifier of a bid of a present
seat bid; hence it is the identifier of an impression of the request whenever
every bid of the seat-bid map names an impression of the request, which
`newAuction`, not being given the request, does not check. -/
theorem newAuction_keys_are_bid_imps (seatBids : GoMap BidderName (Option pbsOrtbSeatBid))
    (numImps : Nat) (i : String)
    (hkey : mapGet (newAuction seatBids numImps).winningBids i ≠ none ∨
      mapGet (newAuction seatBids numImps).winningBidsByBidder i ≠ none) :
    (∃ b seatBid x, (b, some seatBid) ∈ seatBids ∧ x ∈ seatBid.bids ∧
        x.val.bid.val.ImpID = i) ∧
      ∀ request : BidRequest,
        (∀ b seatBid x, (b, some seatBid) ∈ seatBids → x ∈ seatBid.bids →
          ∃ imp ∈ request.Imp, imp.ID = x.val.bid.val.ImpID) →
        ∃ imp ∈ request.Imp, imp.ID = i := by
  have hex : ∃ b seatBid x, (b, some seatBid) ∈ seatBids ∧ x ∈ seatBid.bids ∧
      x.val.bid.val.ImpID = i := by
    by_contra hcon
    have hno : ∀ b seatBid x, (b, some seatBid) ∈ seatBids → x ∈ seatBid.bids →
        x.val.bid.val.ImpID ≠ i := by
      intro b sb x h1 h2 h3
      exact hcon ⟨b, sb, x, h1, h2, h3⟩
    obtain ⟨h1, h2⟩ := no_entry_of_no_bid seatBids numImps i hno
    rcases hkey with h | h
    · exact h h1
    · exact h h2
  refine ⟨hex, ?_⟩
  intro request hall
  obtain ⟨b, sb, x, h1, h2, h3⟩ := hex
  obtain ⟨imp, himp, hid⟩ := hall b sb x h1 h2
  exact ⟨imp, himp, hid.trans h3⟩

theorem newAuction_keys_are_bid_imps_witness :
    ∃ imp ∈ (⟨"req-1", [⟨"imp-1", some ⟨"300x250"⟩, none, "", none⟩]⟩ : BidRequest).Imp,
      imp.ID = "imp-1" :=
  (newAuction_keys_are_bid_imps seatBidsAB 1 "imp-1" (Or.inl (by decide!))).2
    ⟨"req-1", [⟨"imp-1", some ⟨"300x250"⟩, none, "", none⟩]⟩
    (by
      intro b seatBid x h1 h2
      simp only [seatBidsAB, List.mem_cons, Prod.mk.injEq, Option.some.injEq,
        List.mem_singleton] at h1
      rcases h1 with ⟨-, rfl⟩ | ⟨-, rfl⟩ | ⟨-, h⟩ | h
      · simp only [List.mem_singleton] at h2
        subst h2
        exact ⟨⟨"imp-1", some ⟨"300x250"⟩, none, "", none⟩, by simp, rfl⟩
      · simp only [List.mem_singleton] at h2
        subst h2
        exact ⟨⟨"imp-1", some ⟨"300x250"⟩, none, "", none⟩, by simp, rfl⟩
      · cases h
      · cases h)

/-! ## Visiting order of the bidders -/

theorem allBids_append (s1 s2 : GoMap BidderName (Option pbsOrtbSeatBid)) :
    allBids (s1 ++ s2) = allBids s1 ++ allBids s2 := by
  induction s1 with
  | nil => rfl
  | cons e rest ih =>
    obtain ⟨b, seat⟩ := e
    cases seat with
    | none => simpa [allBids] using ih
    | some seatBid => simp [allBids, ih]

theorem bidsFor_split (s1 s2 : GoMap BidderName (Option pbsOrtbSeatBid)) (b : BidderName)
    (seatBid : pbsOrtbSeatBid) (i : String) :
    bidsFor (s1 ++ (b, some seatBid) :: s2) i =
      bidsFor s1 i ++
        (seatBid.bids.map (fun x => (b, x))).filter (fun e => decide (impOf e.2 = i)) ++
        bidsFor s2 i := by
  unfold bidsFor
  rw [allBids_append]
  simp [allBids, List.filter_append]

theorem key_of_mem_bidsFor (seatBids : GoMap BidderName (Option pbsOrtbSeatBid)) (i : String)
    (e : BidderName × Ptr pbsOrtbBid) (he : e ∈ bidsFor seatBids i) :
    e.1 ∈ seatBids.map Prod.fst := by
  obtain ⟨⟨sb, h1, -⟩, -⟩ := (mem_bidsFor seatBids i e.1 e.2).1 he
  exact List.mem_map.2 ⟨(e.1, some sb), h1, rfl⟩

theorem mem_bidsFor_perm (s s' : GoMap BidderName (Option pbsOrtbSeatBid)) (i : String)
    (hperm : s'.Perm s) (e : BidderName × Ptr pbsOrtbBid) :
    e ∈ bidsFor s' i ↔ e ∈ bidsFor s i := by
  obtain ⟨b, x⟩ := e
  rw [mem_bidsFor, mem_bidsFor]
  constructor
  · rintro ⟨⟨sb, h1, h2⟩, h3⟩
    exact ⟨⟨sb, hperm.mem_iff.1 h1, h2⟩, h3⟩
  · rintro ⟨⟨sb, h1, h2⟩, h3⟩
    exact ⟨⟨sb, hperm.mem_iff.2 h1, h2⟩, h3⟩

theorem earliestHighest_price_congr {β : Type} (price : β → ℚ) (l l' : List β)
    (hmem : ∀ e, e ∈ l' ↔ e ∈ l) :
    (earliestHighest price l').map price = (earliestHighest price l).map price := by
  cases h : earliestHighest price l with
  | none =>
    cases h' : earliestHighest price l' with
    | none => rfl
    | some w' =>
      obtain ⟨hin, -⟩ := earliestHighest_spec price l' w' h'
      obtain ⟨w, hw⟩ := earliestHighest_of_mem price l w' ((hmem w').1 hin)
      rw [h] at hw
      cases hw
  | some w =>
    obtain ⟨hin, hle⟩ := earliestHighest_spec price l w h
    obtain ⟨w', h'⟩ := earliestHighest_of_mem price l' w ((hmem w).2 hin)
    obtain ⟨hin', hle'⟩ := earliestHighest_spec price l' w' h'
    rw [h']
    simp only [Option.map_some', Option.some.injEq]
    exact le_antisymm (hle w' ((hmem w').1 hin')) (hle' w ((hmem w).2 hin))

/-- The earliest highest of a block is the earliest highest of the whole list
when everything outside the block is strictly cheaper. -/
theorem earliestHighest_block {β : Type} (price : β → ℚ) (before block after : List β) (w : β)
    (hw : earliestHighest price block = some w)
    (hbefore : ∀ e ∈ before, price e < price w) (hafter : ∀ e ∈ after, price e < price w) :
    earliestHighest price (before ++ block ++ after) = some w := by
  obtain ⟨pre, post, hsplit, hpre, hpost⟩ := earliestHighest_split price block w hw
  have hlist : before ++ block ++ after = (before ++ pre) ++ w :: (post ++ after) := by
    rw [hsplit]; simp
  rw [hlist]
  apply earliestHighest_of_split
  · intro x hx
    rcases List.mem_append.1 hx with hx | hx
    · exact hbefore x hx
    · exact hpre x hx
  · intro x hx
    rcases List.mem_append.1 hx with hx | hx
    · exact hpost x hx
    · exact le_of_lt (hafter x hx)

/-- The winner among the bids for `i` is the earliest highest bid of the seat
bid of `b`, in every map with distinct keys that holds that seat bid and in
which the bids of the other bidders are strictly cheaper. -/
theorem earliestHighest_of_seat (t : GoMap BidderName (Option pbsOrtbSeatBid)) (b : BidderName)
    (seatBid : pbsOrtbSeatBid) (i : String) (w : BidderName × Ptr pbsOrtbBid)
    (hkeys : (t.map Prod.fst).Nodup) (hseat : (b, some seatBid) ∈ t)
    (hw : earliestHighest priceT
      ((seatBid.bids.map (fun x => (b, x))).filter (fun e => decide (impOf e.2 = i))) = some w)
    (hlow : ∀ e ∈ bidsFor t i, e.1 ≠ b → priceT e < priceT w) :
    earliestHighest priceT (bidsFor t i) = some w := by
  obtain ⟨s1, s2, hsplit⟩ := List.append_of_mem hseat
  subst hsplit
  have hnd : b ∉ s1.map Prod.fst ∧ b ∉ s2.map Prod.fst := by
    simp only [List.map_append, List.map_cons] at hkeys
    have h1 := List.nodup_append.1 hkeys
    have h2 := List.nodup_cons.1 h1.2.1
    refine ⟨?_, h2.1⟩
    intro hb
    exact h1.2.2 hb (List.mem_cons_self _ _)
  have hsplit := bidsFor_split s1 s2 b seatBid i
  rw [hsplit]
  apply earliestHighest_block priceT _ _ _ w hw
  · intro e he
    apply hlow e
    · rw [hsplit]; simp [he]
    · intro hb
      exact hnd.1 (hb ▸ key_of_mem_bidsFor s1 i e he)
  · intro e he
    apply hlow e
    · rw [hsplit]; simp [he]
    · intro hb
      exact hnd.2 (hb ▸ key_of_mem_bidsFor s2 i e he)

/-- C20, as it fails on the code: bidders B and C tie at 2.75 for `imp-1`; when
B is visited first B's bid is the winner, when C is visited first C's bid is. -/
theorem newAuction_order_counterexample :
    seatBidsCB.Perm seatBidsBC ∧
      mapGet (newAuction seatBidsBC 1).winningBids "imp-1" = some bidB ∧
      mapGet (newAuction seatBidsCB 1).winningBids "imp-1" = some bidB2 ∧
      mapGet (newAuction seatBidsCB 1).winningBids "imp-1" ≠
        mapGet (newAuction seatBidsBC 1).winningBids "imp-1" := by
  refine ⟨List.Perm.swap _ _ _, by decide!, by decide!, by decide!⟩

/-- C20, amended: for two visiting orders of the same seat-bid map, the price
of the winner of an impression is the same, and the winner is the same bid
whenever all the highest-priced bids for the impression are bids of one
bidder; when bidders tie at the highest price the winner is the bid of the one
visited first. -/
theorem newAuction_order_independent (s s' : GoMap BidderName (Option pbsOrtbSeatBid))
    (numImps numImps' : Nat) (i : String) (hperm : s'.Perm s)
    (hkeys : (s.map Prod.fst).Nodup) :
    (mapGet (newAuction s' numImps').winningBids i).map cpmOf =
        (mapGet (newAuction s numImps).winningBids i).map cpmOf ∧
      ∀ b : BidderName,
        (∀ e ∈ bidsFor s i, (∀ z ∈ bidsFor s i, priceT z ≤ priceT e) → e.1 = b) →
        mapGet (newAuction s' numImps').winningBids i =
          mapGet (newAuction s numImps).winningBids i := by
  have hmem := mem_bidsFor_perm s s' i hperm
  constructor
  · rw [winningBids_newAuction, winningBids_newAuction, Option.map_map, Option.map_map]
    exact earliestHighest_price_congr priceT (bidsFor s i) (bidsFor s' i) hmem
  · intro b hone
    rw [winningBids_newAuction, winningBids_newAuction]
    cases hw : earliestHighest priceT (bidsFor s i) with
    | none =>
      cases hw' : earliestHighest priceT (bidsFor s' i) with
      | none => rfl
      | some w' =>
        obtain ⟨hin, -⟩ := earliestHighest_spec priceT _ w' hw'
        obtain ⟨w, hw2⟩ := earliestHighest_of_mem priceT _ w' ((hmem w').1 hin)
        rw [hw] at hw2
        cases hw2
    | some w =>
      obtain ⟨hin, hle⟩ := earliestHighest_spec priceT _ w hw
      have hb : w.1 = b := hone w hin hle
      obtain ⟨⟨seatBid, hseat, hx⟩, himp⟩ := (mem_bidsFor s i w.1 w.2).1 hin
      rw [hb] at hseat
      have hwblock : w ∈ (seatBid.bids.map (fun x => (b, x))).filter
          (fun e => decide (impOf e.2 = i)) := by
        rw [List.mem_filter]
        refine ⟨List.mem_map.2 ⟨w.2, hx, ?_⟩, by simpa [impOf] using himp⟩
        rw [← hb]
      obtain ⟨wB, hwB⟩ := earliestHighest_of_mem priceT _ w hwblock
      obtain ⟨hinB, hleB⟩ := earliestHighest_spec priceT _ wB hwB
      have hwB_in : wB ∈ bidsFor s i := by
        rw [List.mem_filter] at hinB
        obtain ⟨hmap, hi⟩ := hinB
        obtain ⟨x, hx', rfl⟩ := List.mem_map.1 hmap
        exact (mem_bidsFor s i b x).2 ⟨⟨seatBid, hseat, hx'⟩, by simpa [impOf] using hi⟩
      have hprice : priceT w ≤ priceT wB := hleB w hwblock
      have hlow : ∀ e ∈ bidsFor s i, e.1 ≠ b → priceT e < priceT wB := by
        intro e he hne
        by_contra hcon
        apply hne
        apply hone e he
        intro z hz
        exact le_trans (hle z hz) (le_trans hprice (not_lt.1 hcon))
      have hlow' : ∀ e ∈ bidsFor s' i, e.1 ≠ b → priceT e < priceT wB :=
        fun e he hne => hlow e ((hmem e).1 he) hne
      have hkeys' : (s'.map Prod.fst).Nodup := (hperm.map Prod.fst).nodup_iff.2 hkeys
      have hs := earliestHighest_of_seat s b seatBid i wB hkeys hseat hwB hlow
      have hs' := earliestHighest_of_seat s' b seatBid i wB hkeys' (hperm.mem_iff.2 hseat)
        hwB hlow'
      rw [hs']
      rw [hw] at hs
      rw [hs]

theorem newAuction_order_independent_witness :
    mapGet (newAuction [("bidderC", none), ("bidderB", some ⟨[bidB]⟩), ("bidderA", some ⟨[bidA]⟩)]
        1).winningBids "imp-1" =
      mapGet (newAuction seatBidsAB 1).winningBids "imp-1" :=
  (newAuction_order_independent seatBidsAB
      [("bidderC", none), ("bidderB", some ⟨[bidB]⟩), ("bidderA", some ⟨[bidA]⟩)] 1 1 "imp-1"
      (List.reverse_perm seatBidsAB) (by decide)).2 "bidderB" (by decide!)

/-! ## The MobileFuse adapter: the tagging loop of `MakeBids` -/

theorem getBidType_cons (imp_id : String) (imp0 : Imp) (rest : List Imp) :
    getBidType imp_id (imp0 :: rest) =
      some (if imp0.Video ≠ none then BidType.BidTypeVideo else BidType.BidTypeBanner) := by
  unfold getBidType
  simp only [List.getElem?_cons_zero]
  split_ifs <;> rfl

theorem getBidType_nil (imp_id : String) : getBidType imp_id [] = none := rfl

/-- The inner loop of `MakeBids` over the bids of one seat, for a tagging
function that gives every bid the tag `t`. -/
theorem foldlM_bids_some (g : Bid → Option BidType) (t : BidType) (hg : ∀ bid, g bid = some t)
    (bids : List Bid) (bidsSoFar : List TypedBid) :
    bids.foldlM
        (fun (bidsSoFar' : List TypedBid) (bid : Bid) =>
          (g bid).map (fun bidType => bidsSoFar' ++ [TypedBid.mk bid bidType]))
        bidsSoFar =
      some (bidsSoFar ++ bids.map (fun bid => TypedBid.mk bid t)) := by
  induction bids generalizing bidsSoFar with
  | nil => simp
  | cons bid more ih =>
    rw [List.foldlM_cons, hg bid]
    simp only [Option.map_some', Option.bind_eq_bind, Option.some_bind]
    rw [ih]
    simp

/-- The outer loop of `MakeBids` over the seats, for a tagging function that
gives every bid the tag `t`. -/
theorem foldlM_seats_some (g : Bid → Option BidType) (t : BidType) (hg : ∀ bid, g bid = some t)
    (seats : List SeatBid) (bidsSoFar : List TypedBid) :
    seats.foldlM
        (fun (bidsSoFar' : List TypedBid) (seatbid : SeatBid) =>
          seatbid.Bid.foldlM
            (fun (bidsSoFar'' : List TypedBid) (bid : Bid) =>
              (g bid).map (fun bidType => bidsSoFar'' ++ [TypedBid.mk bid bidType]))
            bidsSoFar')
        bidsSoFar =
      some (bidsSoFar ++
        (seats.flatMap (fun seatbid => seatbid.Bid)).map (fun bid => TypedBid.mk bid t)) := by
  induction seats generalizing bidsSoFar with
  | nil => simp
  | cons seatbid more ih =>
    rw [List.foldlM_cons, foldlM_bids_some g t hg]
    simp only [Option.bind_eq_bind, Option.some_bind]
    rw [ih]
    simp

/-- The inner loop of `MakeBids` over the bids of one seat, for a tagging
function that panics on every bid: it panics at the first bid. -/
theorem foldlM_bids_none (g : Bid → Option BidType) (hg : ∀ bid, g bid = none)
    (bids : List Bid) (bidsSoFar : List TypedBid) :
    bids.foldlM
        (fun (bidsSoFar' : List TypedBid) (bid : Bid) =>
          (g bid).map (fun bidType => bidsSoFar' ++ [TypedBid.mk bid bidType]))
        bidsSoFar =
      if bids = [] then some bidsSoFar else none := by
  cases bids with
  | nil => simp
  | cons bid more =>
    rw [List.foldlM_cons, hg bid]
    simp

/-- The outer loop of `MakeBids` over the seats, for a tagging function that
panics on every bid: it panics as soon as a seat has a bid. -/
theorem foldlM_seats_none (g : Bid → Option BidType) (hg : ∀ bid, g bid = none)
    (seats : List SeatBid) (bidsSoFar : List TypedBid) :
    seats.foldlM
        (fun (bidsSoFar' : List TypedBid) (seatbid : SeatBid) =>
          seatbid.Bid.foldlM
            (fun (bidsSoFar'' : List TypedBid) (bid : Bid) =>
              (g bid).map (fun bidType => bidsSoFar'' ++ [TypedBid.mk bid bidType]))
            bidsSoFar')
        bidsSoFar =
      if seats.flatMap (fun seatbid => seatbid.Bid) = [] then some bidsSoFar else none := by
  induction seats generalizing bidsSoFar with
  | nil => simp
  | cons seatbid more ih =>
    rw [List.foldlM_cons, foldlM_bids_none g hg]
    by_cases hb : seatbid.Bid = []
    · rw [if_pos hb]
      simp only [Option.bind_eq_bind, Option.some_bind]
      rw [ih]
      simp [hb]
    · rw [if_neg hb]
      simp [hb]

/-- The result of `MakeBids` on a response of status 200 that parses, for a
request with a first impression. -/
theorem MakeBids_of_parsed (unmarshal : String → Except String BidResponse)
    (incomingRequest : BidRequest) (outgoingRequest : RequestData) (response : ResponseData)
    (imp0 : Imp) (rest : List Imp) (resp : BidResponse)
    (himps : incomingRequest.Imp = imp0 :: rest) (hstatus : response.StatusCode = 200)
    (hparse : unmarshal response.Body = Except.ok resp) :
    MakeBids unmarshal incomingRequest outgoingRequest response =
      some (some ⟨(resp.SeatBid.flatMap (fun seatbid => seatbid.Bid)).map
        (fun bid => TypedBid.mk bid
          (if imp0.Video ≠ none then BidType.BidTypeVideo else BidType.BidTypeBanner))⟩, []) := by
  have hloop := foldlM_seats_some (fun bid => getBidType bid.ImpID (imp0 :: rest))
    (if imp0.Video ≠ none then BidType.BidTypeVideo else BidType.BidTypeBanner)
    (fun bid => getBidType_cons bid.ImpID imp0 rest) resp.SeatBid []
  simp only [List.nil_append] at hloop
  have h204 : ¬ ((200 : Int) = 204) := by decide
  have h400 : ¬ ((200 : Int) = 400) := by decide
  simp only [MakeBids, hstatus, StatusNoContent, StatusBadRequest, StatusOK, h204, h400,
    if_false, ne_eq, not_true_eq_false, hparse, himps]
  rw [hloop]
  rfl

/-- C21: for a request with at least one impression, every bid `MakeBids`
returns from a successful response (status 200, parseable body) gets one and
the same tag, video if the first impression of the request carries video and
banner otherwise, whatever the impression identifier and the content of the
bid. -/
theorem MakeBids_one_tag_for_all (unmarshal : String → Except String BidResponse)
    (incomingRequest : BidRequest) (outgoingRequest : RequestData) (response : ResponseData)
    (imp0 : Imp) (rest : List Imp) (resp : BidResponse)
    (himps : incomingRequest.Imp = imp0 :: rest) (hstatus : response.StatusCode = 200)
    (hparse : unmarshal response.Body = Except.ok resp) :
    ∃ typedBids,
      MakeBids unmarshal incomingRequest outgoingRequest response =
        some (some ⟨typedBids⟩, []) ∧
      typedBids.map (fun typedBid => typedBid.Bid) =
        resp.SeatBid.flatMap (fun seatbid => seatbid.Bid) ∧
      ∀ typedBid ∈ typedBids,
        typedBid.BidType =
          if imp0.Video ≠ none then BidType.BidTypeVideo else BidType.BidTypeBanner := by
  refine ⟨_, MakeBids_of_parsed unmarshal incomingRequest outgoingRequest response imp0 rest resp
    himps hstatus hparse, ?_, ?_⟩
  · simp [List.map_map, Function.comp_def]
  · intro typedBid hmem
    obtain ⟨bid, -, rfl⟩ := List.mem_map.1 hmem
    rfl

theorem MakeBids_one_tag_for_all_witness :
    ∃ typedBids,
      MakeBids (fun _ => Except.ok exResponseTwo) exRequestVideoFirst exOutgoing ⟨200, ""⟩ =
        some (some ⟨typedBids⟩, []) ∧
      typedBids.map (fun typedBid => typedBid.Bid) =
        exResponseTwo.SeatBid.flatMap (fun seatbid => seatbid.Bid) ∧
      ∀ typedBid ∈ typedBids,
        typedBid.BidType =
          if (⟨"imp-1", none, some ⟨"mp4"⟩, "", none⟩ : Imp).Video ≠ none then
            BidType.BidTypeVideo
          else BidType.BidTypeBanner :=
  MakeBids_one_tag_for_all (fun _ => Except.ok exResponseTwo) exRequestVideoFirst exOutgoing
    ⟨200, ""⟩ ⟨"imp-1", none, some ⟨"mp4"⟩, "", none⟩
    [⟨"imp-2", some ⟨"300x250"⟩, none, "", none⟩] exResponseTwo rfl rfl rfl

/-- C22: `MakeRequests` returns either exactly one outbound request and no
errors, or no outbound request and at least one error. -/
theorem MakeRequests_request_xor_errors (lib : Library) (request : BidRequest) :
    (∃ rd, MakeRequests lib request = ([some rd], [])) ∨
      ((MakeRequests lib request).1 = [] ∧ (MakeRequests lib request).2 ≠ []) := by
  unfold MakeRequests makeRequest
  simp only []
  by_cases herr : (getFirstMobileFuseExtension lib request).2 = []
  · simp only [herr, ne_eq, not_true_eq_false, if_false, List.nil_append]
    cases hend : getEndpoint lib (getFirstMobileFuseExtension lib request).1 with
    | error err => right; simp
    | ok endpoint =>
      simp only []
      by_cases hlen :
          (getValidImps request (getFirstMobileFuseExtension lib request).1).length = 0
      · right; simp [hlen]
      · rw [if_neg hlen]
        cases hm : lib.marshalBidRequest
            { request with
              Imp := getValidImps request (getFirstMobileFuseExtension lib request).1 } with
        | error err => right; simp
        | ok body =>
          left
          exact ⟨⟨"POST", endpoint, body,
            [("Content-Type", "application/json;charset=utf-8"),
              ("Accept", "application/json")]⟩, by simp⟩
  · right
    simp [herr]

theorem MakeRequests_request_xor_errors_witness :
    (∃ rd, MakeRequests exLib exRequestTwo = ([some rd], [])) ∧
      ((MakeRequests exLib exRequestBadFirst).1 = [] ∧
        (MakeRequests exLib exRequestBadFirst).2 ≠ []) :=
  ⟨(MakeRequests_request_xor_errors exLib exRequestTwo).resolve_right
      (by
        rintro ⟨h, -⟩
        have h0 : (MakeRequests exLib exRequestTwo).1 ≠ [] := by decide
        exact h0 h),
    (MakeRequests_request_xor_errors exLib exRequestBadFirst).resolve_left
      (by
        rintro ⟨rd, h⟩
        have h0 : (MakeRequests exLib exRequestBadFirst).1 = [] := by decide
        rw [h] at h0
        cases h0)⟩

/-- C23: for a request with at least one impression the lookup `imps[0]` of
`getBidType` succeeds and `MakeBids` returns, for every response and parser;
and for a request with no impressions a response of status 200 that parses to
at least one bid makes `MakeBids` panic on the out-of-range lookup. -/
theorem MakeBids_index_in_range (unmarshal : String → Except String BidResponse)
    (incomingRequest : BidRequest) (outgoingRequest : RequestData) (response : ResponseData) :
    (incomingRequest.Imp ≠ [] →
        (∀ imp_id, ∃ bidType, getBidType imp_id incomingRequest.Imp = some bidType) ∧
        ∃ result, MakeBids unmarshal incomingRequest outgoingRequest response = some result) ∧
      (∀ resp, incomingRequest.Imp = [] → response.StatusCode = 200 →
        unmarshal response.Body = Except.ok resp →
        resp.SeatBid.flatMap (fun seatbid => seatbid.Bid) ≠ [] →
        MakeBids unmarshal incomingRequest outgoingRequest response = none) := by
  constructor
  · intro hne
    obtain ⟨imp0, rest, himps⟩ := List.exists_cons_of_ne_nil hne
    refine ⟨fun imp_id => ⟨_, by rw [himps]; exact getBidType_cons imp_id imp0 rest⟩, ?_⟩
    by_cases h200 : response.StatusCode = 200
    · cases hparse : unmarshal response.Body with
      | error err =>
        have h204 : ¬ ((200 : Int) = 204) := by decide
        have h400 : ¬ ((200 : Int) = 400) := by decide
        exact ⟨(none, [AdapterError.Other err]), by
          simp only [MakeBids, h200, StatusNoContent, StatusBadRequest, StatusOK, h204, h400,
            if_false, ne_eq, not_true_eq_false, hparse]⟩
      | ok resp =>
        exact ⟨_, MakeBids_of_parsed unmarshal incomingRequest outgoingRequest response imp0
          rest resp himps h200 hparse⟩
    · unfold MakeBids
      by_cases h204 : response.StatusCode = StatusNoContent
      · exact ⟨_, by rw [if_pos h204]⟩
      · by_cases h400 : response.StatusCode = StatusBadRequest
        · exact ⟨_, by rw [if_neg h204, if_pos h400]⟩
        · have hnot : response.StatusCode ≠ StatusOK := h200
          exact ⟨_, by rw [if_neg h204, if_neg h400, if_pos hnot]⟩
  · intro resp himps hstatus hparse hbids
    have hloop := foldlM_seats_none (fun bid => getBidType bid.ImpID [])
      (fun bid => getBidType_nil bid.ImpID) resp.SeatBid []
    rw [if_neg hbids] at hloop
    have h204 : ¬ ((200 : Int) = 204) := by decide
    have h400 : ¬ ((200 : Int) = 400) := by decide
    simp only [MakeBids, hstatus, StatusNoContent, StatusBadRequest, StatusOK, h204, h400,
      if_false, ne_eq, not_true_eq_false, hparse, himps]
    rw [hloop]
    rfl

theorem MakeBids_index_in_range_witness :
    (∃ result,
        MakeBids (fun _ => Except.ok exResponseTwo) exRequestVideoFirst exOutgoing ⟨200, ""⟩ =
          some result) ∧
      MakeBids (fun _ => Except.ok exResponseTwo) exRequestEmpty exOutgoing ⟨200, ""⟩ = none :=
  ⟨((MakeBids_index_in_range (fun _ => Except.ok exResponseTwo) exRequestVideoFirst exOutgoing
      ⟨200, ""⟩).1 (by decide)).2,
    (MakeBids_index_in_range (fun _ => Except.ok exResponseTwo) exRequestEmpty exOutgoing
      ⟨200, ""⟩).2 exResponseTwo rfl rfl rfl (by decide!)⟩

end Prebid
